import Mathlib

/-!
# Gomoku move search: a shallow embedding of `Main.cpp`

The C++ program keeps its state in globals (`board`, `currentHash`,
`transpositionTable`, `zobristTable`).  Here the globals become explicit
arguments and results.  `int` is 32-bit two's complement: the arithmetic on
scores and on search bounds is wrapped with `wrapInt32`; loop counters and
cell coordinates, which never leave `[-16, 31]`, are plain integers.
-/

namespace Gomoku

/-! ## Constants -/

/-- Side length of the board (`const int BOARD_SIZE = 15`). -/
def BOARD_SIZE : Int := 15

/-- The human's stone (`const char HUMAN_PIECE = 'X'`). -/
def HUMAN_PIECE : Char := 'X'

/-- The engine's stone (`const char AI_PIECE = 'O'`). -/
def AI_PIECE : Char := 'O'

/-- An unoccupied cell (`const char EMPTY_CELL = ' '`). -/
def EMPTY_CELL : Char := ' '

/-- Pattern weight of a run of five or more. -/
def WIN_SCORE : Int := 1000000

/-- Pattern weight of a run of four open at both ends. -/
def FOUR_SCORE : Int := 100000

/-- Pattern weight of a run of four not open at both ends. -/
def BROKEN_FOUR_SCORE : Int := 10000

/-- Pattern weight of a run of three open at both ends. -/
def THREE_SCORE : Int := 1000

/-- Pattern weight of a run of three not open at both ends. -/
def BROKEN_THREE_SCORE : Int := 100

/-- Smallest `int` (`numeric_limits<int>::min()`). -/
def INT_MIN : Int := -2147483648

/-- Largest `int` (`numeric_limits<int>::max()`). -/
def INT_MAX : Int := 2147483647

/-! ## Machine integers -/

/-- Reduction of a mathematical integer to the 32-bit two's complement range. -/
def wrapInt32 (z : Int) : Int := (z + 2147483648) % 4294967296 - 2147483648

/-- Addition of two `int`s. -/
def addInt32 (a b : Int) : Int := wrapInt32 (a + b)

/-- Subtraction of two `int`s. -/
def subInt32 (a b : Int) : Int := wrapInt32 (a - b)

/-- Multiplication of two `int`s. -/
def mulInt32 (a b : Int) : Int := wrapInt32 (a * b)

/-- Unary minus on an `int`. -/
def negInt32 (a : Int) : Int := wrapInt32 (-a)

/-! ## Board -/

/-- The cell grid `vector<vector<char>> board`, read as `board y x`.  Only the
indices `0 ≤ y, x < BOARD_SIZE` are ever read or written by the program. -/
abbrev Board := Int → Int → Char

/-- A coordinate pair `(row, column)` (`pair<int, int>`). -/
abbrev Move := Int × Int

/-- The bounds test `ny >= 0 && ny < BOARD_SIZE && nx >= 0 && nx < BOARD_SIZE`. -/
def inBoard (y x : Int) : Bool :=
  decide (0 ≤ y) && decide (y < BOARD_SIZE) && decide (0 ≤ x) && decide (x < BOARD_SIZE)

/-- The assignment `board[y][x] = c`. -/
def setCell (board : Board) (y x : Int) (c : Char) : Board :=
  fun y' x' => if y' = y ∧ x' = x then c else board y' x'

/-- The values `0, 1, ..., BOARD_SIZE - 1` taken by the loop counters `y` and `x`. -/
def indices : List Int := (List.range 15).map Int.ofNat

/-- The values `-1, 0, 1` taken by the loop counters `dy` and `dx`. -/
def offsets : List Int := [-1, 0, 1]

/-! ## getNearbyMoves -/

/-- The loop `for (int dx = -1; dx <= 1 && !found; dx++)` of `getNearbyMoves`,
over the remaining values of `dx`, on the pair `(found, moves)`. -/
def scanDx (board : Board) (y x dy : Int) : List Int → Bool × List Move → Bool × List Move
  | [], st => st
  | dx :: rest, (found, moves) =>
    if found then (found, moves)
    else if dy = 0 ∧ dx = 0 then scanDx board y x dy rest (found, moves)
    else
      let ny := y + dy
      let nx := x + dx
      if inBoard ny nx = true ∧ board ny nx ≠ EMPTY_CELL then
        scanDx board y x dy rest (true, moves ++ [(y, x)])
      else scanDx board y x dy rest (found, moves)

/-- The loop `for (int dy = -1; dy <= 1 && !found; dy++)` of `getNearbyMoves`. -/
def scanDy (board : Board) (y x : Int) : List Int → Bool × List Move → Bool × List Move
  | [], st => st
  | dy :: rest, (found, moves) =>
    if found then (found, moves)
    else scanDy board y x rest (scanDx board y x dy offsets (found, moves))

/-- Body of the loop over `x` in `getNearbyMoves`: one cell. -/
def scanCell (board : Board) (y : Int) (moves : List Move) (x : Int) : List Move :=
  if board y x ≠ EMPTY_CELL then moves
  else (scanDy board y x offsets (false, moves)).2

/-- Body of the loop over `y` in `getNearbyMoves`: one row. -/
def scanRow (board : Board) (moves : List Move) (y : Int) : List Move :=
  indices.foldl (scanCell board y) moves

/-- Embedding of `getNearbyMoves`: the empty cells that have an occupied
neighbour, or the centre cell when there is none. -/
def getNearbyMoves (board : Board) : List Move :=
  let moves := indices.foldl (scanRow board) []
  if moves.isEmpty then [(BOARD_SIZE / 2, BOARD_SIZE / 2)] else moves

/-! ## evaluateDirection -/

/-- One of the two `while (true)` loops of `evaluateDirection`, walking from
`(y, x)` in steps of `(dy, dx)` starting at step `i`, on the pair
`(consecutive, openEnds)`.  The first argument bounds the number of
iterations; `none` means that the loop has not left within that bound. -/
def scanSide (board : Board) (y x dy dx : Int) (player : Char) :
    Nat → Int → Int × Int → Option (Int × Int)
  | 0, _, _ => none
  | fuel + 1, i, (consecutive, openEnds) =>
    let cy := y + i * dy
    let cx := x + i * dx
    if cy < 0 ∨ cy ≥ BOARD_SIZE ∨ cx < 0 ∨ cx ≥ BOARD_SIZE then some (consecutive, openEnds)
    else if board cy cx = player then
      scanSide board y x dy dx player fuel (i + 1) (consecutive + 1, openEnds)
    else if board cy cx = EMPTY_CELL then some (consecutive, openEnds + 1)
    else some (consecutive, openEnds)

/-- The scoring table that ends `evaluateDirection`, on the final values of
`consecutive` (the origin cell included) and `openEnds`. -/
def patternScore (consecutive openEnds : Int) : Int :=
  if consecutive ≥ 5 then WIN_SCORE
  else if consecutive = 4 then (if openEnds = 2 then FOUR_SCORE else BROKEN_FOUR_SCORE)
  else if consecutive = 3 then (if openEnds = 2 then THREE_SCORE else BROKEN_THREE_SCORE)
  else 0

/-- Number of iterations granted to each `while (true)` loop of
`evaluateDirection`.  A walk in a direction other than `(0, 0)` leaves the
board within `BOARD_SIZE + 1` steps. -/
def scanFuel : Nat := 16

/-- Embedding of `evaluateDirection`.  The walk in the negative direction,
`y - i*dy`, is the walk with the direction negated.  The result is `none`
when one of the loops does not leave within `scanFuel` iterations, which is
what happens in the source for `dy = dx = 0` on a cell of `player`: that
loop never ends. -/
def evaluateDirection (board : Board) (y x dy dx : Int) (player : Char) : Option Int :=
  match scanSide board y x dy dx player scanFuel 1 (0, 0) with
  | none => none
  | some st =>
    match scanSide board y x (-dy) (-dx) player scanFuel 1 st with
    | none => none
    | some (consecutive, openEnds) => some (patternScore (consecutive + 1) openEnds)

/-! ## evaluatePosition -/

/-- The array `directions[4][2]` of `evaluatePosition`. -/
def directions : List (Int × Int) := [(0, 1), (1, 0), (1, 1), (1, -1)]

/-- Embedding of `evaluatePosition`: `score += evaluateDirection(...)` over the
four directions.  For these directions `evaluateDirection` always returns
(`evaluateDirection_isSome`), so the default below is never used. -/
def evaluatePosition (board : Board) (y x : Int) (player : Char) : Int :=
  directions.foldl
    (fun score dir =>
      addInt32 score ((evaluateDirection board y x dir.1 dir.2 player).getD 0))
    0

/-! ## Search state and hashing -/

/-- The global `zobristTable[BOARD_SIZE][BOARD_SIZE][2]`, filled once with
random 64-bit keys by `initializeZobrist` and constant afterwards. -/
abbrev ZobristTable := Int → Int → Nat → Nat

/-- The global `unordered_map<unsigned long long, int> transpositionTable`. -/
abbrev TranspositionTable := Nat → Option Int

/-- The mutable globals read and written by the search. -/
structure State where
  /-- The cell grid. -/
  board : Board
  /-- The 64-bit position hash. -/
  currentHash : Nat
  /-- The cache of static scores. -/
  transpositionTable : TranspositionTable

/-- Embedding of `updateHash`, as a function of the old `currentHash`. -/
def updateHash (zobristTable : ZobristTable) (y x : Int) (player : Char)
    (currentHash : Nat) : Nat :=
  let idx : Nat := if player = AI_PIECE then 1 else 0
  currentHash ^^^ zobristTable y x idx

/-- The pair `board[y][x] = player; updateHash(y, x, player);`. -/
def makeMove (zobristTable : ZobristTable) (s : State) (y x : Int) (player : Char) : State :=
  { s with
    board := setCell s.board y x player
    currentHash := updateHash zobristTable y x player s.currentHash }

/-- The pair `board[y][x] = EMPTY_CELL; updateHash(y, x, player);`. -/
def undoMove (zobristTable : ZobristTable) (s : State) (y x : Int) (player : Char) : State :=
  { s with
    board := setCell s.board y x EMPTY_CELL
    currentHash := updateHash zobristTable y x player s.currentHash }

/-- The expression `player == AI_PIECE ? HUMAN_PIECE : AI_PIECE`. -/
def otherPlayer (player : Char) : Char :=
  if player = AI_PIECE then HUMAN_PIECE else AI_PIECE

/-! ## evaluateGameState -/

/-- Body of the loop over `x` in `evaluateGameState`, on `(aiScore, humanScore)`. -/
def scoreCell (board : Board) (y : Int) (acc : Int × Int) (x : Int) : Int × Int :=
  if board y x = AI_PIECE then
    (addInt32 acc.1 (evaluatePosition board y x AI_PIECE), acc.2)
  else if board y x = HUMAN_PIECE then
    (acc.1, addInt32 acc.2 (evaluatePosition board y x HUMAN_PIECE))
  else acc

/-- Body of the loop over `y` in `evaluateGameState`. -/
def scoreRow (board : Board) (acc : Int × Int) (y : Int) : Int × Int :=
  indices.foldl (scoreCell board y) acc

/-- The board scan of `evaluateGameState`: the final `(aiScore, humanScore)`. -/
def scanScores (board : Board) : Int × Int :=
  indices.foldl (scoreRow board) (0, 0)

/-- The value `aiScore - humanScore * 2` computed on a cache miss. -/
def staticScore (board : Board) : Int :=
  let sc := scanScores board
  subInt32 sc.1 (mulInt32 sc.2 2)

/-- Embedding of `evaluateGameState`: the returned value and the state it leaves. -/
def evaluateGameState (s : State) : Int × State :=
  match s.transpositionTable s.currentHash with
  | some v => (v, s)
  | none =>
    let finalScore := staticScore s.board
    (finalScore,
      { s with
        transpositionTable := fun h =>
          if h = s.currentHash then some finalScore else s.transpositionTable h })

/-! ## negamax -/

/-- The library routine `std::sort` on the candidate list, as a function of
the comparison it is given.  The order it gives to candidates that compare
equal is not fixed by the language, so it is a parameter of the search. -/
abbrev Sorter := (Move → Move → Bool) → List Move → List Move

/-- A recursive call of `negamax` at a fixed depth. -/
abbrev Callee := Int → Int → Char → State → Int × State

/-- The null-move test at the head of the loop body of `negamax`:
`probe` is absent when `depth < 3`.  Returns whether `nullScore >= beta`,
and the state after the probe. -/
def nullMoveProbe (probe : Option Callee) (beta : Int) (player : Char) (s : State) :
    Bool × State :=
  match probe with
  | none => (false, s)
  | some f =>
    let r := f (negInt32 beta) (addInt32 (negInt32 beta) 1) (otherPlayer player) s
    (decide (negInt32 r.1 ≥ beta), r.2)

/-- The loop `for (auto& move : moves)` of `negamax`, over the remaining
candidates, on `alpha`, `bestValue` and the state.  `probe` is the call
`negamax(depth-1-2, ...)` and `child` the call `negamax(depth-1, ...)`. -/
def searchLoop (zobristTable : ZobristTable) (probe : Option Callee) (child : Callee)
    (beta : Int) (player : Char) : List Move → Int → Int → State → Int × State
  | [], _, bestValue, s => (bestValue, s)
  | (y, x) :: rest, alpha, bestValue, s =>
    let s1 := makeMove zobristTable s y x player
    let pr := nullMoveProbe probe beta player s1
    if pr.1 = true then (beta, undoMove zobristTable pr.2 y x player)
    else
      let r := child (negInt32 beta) (negInt32 alpha) (otherPlayer player) pr.2
      let value := negInt32 r.1
      let s3 := undoMove zobristTable r.2 y x player
      if value > bestValue then
        let alpha1 := if value > alpha then value else alpha
        if alpha1 ≥ beta then (value, s3)
        else searchLoop zobristTable probe child beta player rest alpha1 value s3
      else searchLoop zobristTable probe child beta player rest alpha bestValue s3

/-- The comparison handed to `std::sort` in `negamax`. -/
def moveOrder (board : Board) (a b : Move) : Bool :=
  decide (evaluatePosition board a.1 a.2 AI_PIECE > evaluatePosition board b.1 b.2 AI_PIECE)

/-- Embedding of `negamax`: the returned value and the state it leaves. -/
def negamax (zobristTable : ZobristTable) (sortMoves : Sorter) (depth : Nat)
    (alpha beta : Int) (player : Char) (s : State) : Int × State :=
  if h0 : depth = 0 then evaluateGameState s
  else
    let moves := getNearbyMoves s.board
    if moves.isEmpty then (0, s)
    else
      let sorted := sortMoves (moveOrder s.board) moves
      let probe : Option Callee :=
        if h3 : depth ≥ 3 then
          some (fun a b p t => negamax zobristTable sortMoves (depth - 1 - 2) a b p t)
        else none
      searchLoop zobristTable probe
        (fun a b p t => negamax zobristTable sortMoves (depth - 1) a b p t)
        beta player sorted alpha INT_MIN s
termination_by depth
decreasing_by all_goals omega

/-! ## findBestMove -/

/-- The loop `for (auto& move : moves)` of `findBestMove`, over the remaining
candidates, on `bestValue`, `bestMove` and the state. -/
def bestMoveLoop (zobristTable : ZobristTable) (sortMoves : Sorter) :
    List Move → Int → Move → State → Move × State
  | [], _, bestMove, s => (bestMove, s)
  | (y, x) :: rest, bestValue, bestMove, s =>
    let s1 := makeMove zobristTable s y x AI_PIECE
    let r := negamax zobristTable sortMoves 7 INT_MIN INT_MAX HUMAN_PIECE s1
    let moveValue := negInt32 r.1
    let s2 := undoMove zobristTable r.2 y x AI_PIECE
    let best : Int × Move :=
      if moveValue > bestValue then (moveValue, (y, x)) else (bestValue, bestMove)
    if moveValue = WIN_SCORE then (best.2, s2)
    else bestMoveLoop zobristTable sortMoves rest best.1 best.2 s2

/-- Embedding of `findBestMove`: the returned move and the state it leaves. -/
def findBestMove (zobristTable : ZobristTable) (sortMoves : Sorter) (s : State) :
    Move × State :=
  bestMoveLoop zobristTable sortMoves (getNearbyMoves s.board) INT_MIN
    (BOARD_SIZE / 2, BOARD_SIZE / 2) s

/-! ## Notions used to state the properties -/

/-- Spec-side notion: `a` is the number of consecutive `p`-cells met when
walking outward from `(y, x)` in steps of `(dy, dx)`: the cells at steps
`1..a` are on the board and hold `p`, the cell at step `a + 1` is not such a
cell. -/
def IsSideRun (board : Board) (y x dy dx : Int) (p : Char) (a : Nat) : Prop :=
  (∀ j : Int, 1 ≤ j → j ≤ a →
      inBoard (y + j * dy) (x + j * dx) = true ∧ board (y + j * dy) (x + j * dx) = p) ∧
    ¬ (inBoard (y + (a + 1) * dy) (x + (a + 1) * dx) = true ∧
        board (y + (a + 1) * dy) (x + (a + 1) * dx) = p)

/-- Spec-side notion: `1` when the cell that ends a side run of length `a` is
on the board and empty, `0` otherwise. -/
def openSide (board : Board) (y x dy dx : Int) (a : Nat) : Int :=
  if inBoard (y + (a + 1) * dy) (x + (a + 1) * dx) = true ∧
      board (y + (a + 1) * dy) (x + (a + 1) * dx) = EMPTY_CELL then 1 else 0

/-- Example board: four AI stones on row 7, columns 3 to 6, nothing else. -/
def fourInRow : Board := fun y x => if y = 7 ∧ 3 ≤ x ∧ x ≤ 6 then AI_PIECE else EMPTY_CELL

/-- The test applied by `getNearbyMoves` to one neighbour offset. -/
def neighbourTest (board : Board) (y x dy dx : Int) : Bool :=
  !(decide (dy = 0 ∧ dx = 0)) && (inBoard (y + dy) (x + dx) &&
    decide (board (y + dy) (x + dx) ≠ EMPTY_CELL))

/-- Some offset in `-1..1 × -1..1` passes the neighbour test. -/
def hasNeighbour (board : Board) (y x : Int) : Bool :=
  offsets.any (fun dy => offsets.any (fun dx => neighbourTest board y x dy dx))

/-- Spec-side notion: some on-board cell at Chebyshev distance 1 of `(y, x)` is occupied. -/
def HasStoneNeighbour (board : Board) (y x : Int) : Prop :=
  ∃ ny nx : Int, inBoard ny nx = true ∧ max |ny - y| |nx - x| = 1 ∧ board ny nx ≠ EMPTY_CELL

/-- Spec-side notion: `a` comes before `b` in row-major order. -/
def rowMajorLt (a b : Move) : Prop := a.1 < b.1 ∨ (a.1 = b.1 ∧ a.2 < b.2)

/-- The cells that qualify in row `y`, by increasing column. -/
def nearRow (board : Board) (y : Int) : List Move :=
  (indices.filter (fun x => decide (board y x = EMPTY_CELL) && hasNeighbour board y x)).map
    (fun x => (y, x))

/-- The cells that qualify, row by row. -/
def nearCells (board : Board) : List Move :=
  indices.flatMap (nearRow board)

/-- Example board: no stone at all. -/
def emptyBoard : Board := fun _ _ => EMPTY_CELL

/-- Example board: every cell holds a Human stone. -/
def fullBoard : Board := fun _ _ => HUMAN_PIECE

/-- Example key table: distinct small keys. -/
def testKeys : ZobristTable := fun y x idx => (y.toNat * 15 + x.toNat) * 2 + idx + 1

/-- Example sorter: insertion sort by the given comparison. -/
def insertionSorter : Sorter := fun lt l => l.insertionSort (fun a b => lt b a = false)

/-- Example state: the empty board, hash 0, nothing cached. -/
def emptyState : State := ⟨emptyBoard, 0, fun _ => none⟩

/-- Example state: the full board, hash 0, nothing cached. -/
def fullState : State := ⟨fullBoard, 0, fun _ => none⟩

/-- All 225 cells of the board, in row-major order. -/
def cells : List Move := indices.flatMap (fun y => indices.map (fun x => (y, x)))

/-- Spec-side notion: the sum, over the cells owned by `p`, of `evaluatePosition`
for that cell and `p`, as a mathematical integer. -/
def sideScore (board : Board) (p : Char) : Int :=
  ((cells.filter (fun c => decide (board c.1 c.2 = p))).map
    (fun c => evaluatePosition board c.1 c.2 p)).sum

/-- Sum of `evaluatePosition` over the cells of `l` owned by `p`. -/
def ownedSum (board : Board) (p : Char) (l : List Move) : Int :=
  ((l.filter (fun c => decide (board c.1 c.2 = p))).map
    (fun c => evaluatePosition board c.1 c.2 p)).sum

/-- Every cached score lies in the range of the static score. -/
def TableOK (t : TranspositionTable) : Prop :=
  ∀ h v, t h = some v → -1800000000 ≤ v ∧ v ≤ 900000000

/-- The sorter keeps a non-empty candidate list non-empty (as any permutation does). -/
def KeepsNonempty (sortMoves : Sorter) : Prop :=
  ∀ (lt : Move → Move → Bool) (l : List Move), l ≠ [] → sortMoves lt l ≠ []

/-- Example board: one Human stone in the corner `(0, 0)`, nothing else. -/
def cornerBoard : Board := fun y x => if y = 0 ∧ x = 0 then HUMAN_PIECE else EMPTY_CELL

/-- Example state: the corner board with its hash, nothing cached. -/
def cornerState : State := ⟨cornerBoard, testKeys 0 0 0, fun _ => none⟩

/-- Spec-side notion: the number of cells of the board that hold `p`. -/
def stoneCount (board : Board) (p : Char) : Nat :=
  (cells.filter (fun c => decide (board c.1 c.2 = p))).length

/-- The sorter returns a rearrangement of the list it is given, as `std::sort` does. -/
def SortPermutes (sortMoves : Sorter) : Prop :=
  ∀ (lt : Move → Move → Bool) (l : List Move), (sortMoves lt l).Perm l

/-- Example board: AI stones on row 7, columns 0 to 3, a Human stone at column 4. -/
def blockedFour : Board := fun y x =>
  if y = 7 ∧ 0 ≤ x ∧ x ≤ 3 then AI_PIECE else if y = 7 ∧ x = 4 then HUMAN_PIECE else EMPTY_CELL

/-- Example board: five AI stones on row 7, columns 2 to 6, nothing else. -/
def fiveInRow : Board := fun y x => if y = 7 ∧ 2 ≤ x ∧ x ≤ 6 then AI_PIECE else EMPTY_CELL

/-- Example board: five AI stones on row 7, columns 3 to 7, nothing else. -/
def fiveInRowRight : Board := fun y x => if y = 7 ∧ 3 ≤ x ∧ x ≤ 7 then AI_PIECE else EMPTY_CELL

/-- Spec-side notion: the number of empty cells of the board. -/
def emptyCount (board : Board) : Nat := stoneCount board EMPTY_CELL

/-- The board has at least `d` distinct empty on-board cells. -/
def HasEmptyCells (board : Board) (d : Nat) : Prop :=
  ∃ l : List Move, l.Nodup ∧ d ≤ l.length ∧
    ∀ c ∈ l, inBoard c.1 c.2 = true ∧ board c.1 c.2 = EMPTY_CELL

/-- Spec-side notion: the Zobrist hash of a board, the XOR of the keys of its
occupied cells (key 1 of the cell for an AI stone, key 0 for any other stone). -/
def boardHash (zobristTable : ZobristTable) (board : Board) : Nat :=
  cells.foldl
    (fun h c =>
      if board c.1 c.2 = EMPTY_CELL then h
      else updateHash zobristTable c.1 c.2 (board c.1 c.2) h)
    0

/-- Two boards hold the same cell grid. -/
def SameGrid (b1 b2 : Board) : Prop := ∀ y x, inBoard y x = true → b1 y x = b2 y x

/-- Spec-side notion: the greatest element of a list of `int`s (`INT_MIN` for the empty list). -/
def listMax (l : List Int) : Int := l.foldl max INT_MIN

/-- Spec-side notion: the value of the unpruned search of depth `d`: the static
score at depth 0, otherwise the maximum over all candidates of the negated
value of the child reached by that candidate. -/
def unprunedValue : Nat → Board → Char → Int
  | 0, board, _ => staticScore board
  | d + 1, board, player =>
    listMax ((getNearbyMoves board).map
      (fun m => -(unprunedValue d (setCell board m.1 m.2 player) (otherPlayer player))))

/-- Spec-side notion: the leaves of the unpruned search tree of depth `d`, each
with the hash `currentHash` has when the search stands on it. -/
def leafStates (zobristTable : ZobristTable) : Nat → Board → Nat → Char → List (Board × Nat)
  | 0, board, h, _ => [(board, h)]
  | d + 1, board, h, player =>
    (getNearbyMoves board).flatMap
      (fun m => leafStates zobristTable d (setCell board m.1 m.2 player)
        (updateHash zobristTable m.1 m.2 player h) (otherPlayer player))

/-- Spec-side notion: `v` is the greatest of the values `g m`, `m` in `l`. -/
def IsMaxOver (l : List Move) (g : Move → Int) (v : Int) : Prop :=
  (∃ m ∈ l, g m = v) ∧ ∀ m ∈ l, g m ≤ v

/-- Cached scores are right on the positions `U`: a value cached under the hash
of such a position is its static score. -/
def SoundOn (U : Board → Nat → Prop) (t : TranspositionTable) : Prop :=
  ∀ b h v, U b h → t h = some v → v = staticScore b

/-- The relation between the value `r` returned under the window
`(alpha, beta)` and the unpruned value `v`. -/
def WindowAgrees (r v alpha beta : Int) : Prop :=
  (alpha < v → v < beta → r = v) ∧ (v ≤ alpha → r ≤ alpha) ∧ (beta ≤ v → beta ≤ r)

/-- Example board: Human stones at row 0, columns 0 to 2, nothing else. -/
def cornerThree : Board := fun y x =>
  if y = 0 ∧ 0 ≤ x ∧ x ≤ 2 then HUMAN_PIECE else EMPTY_CELL

/-- Example state: the board `cornerThree` with its hash, nothing cached. -/
def cornerThreeState : State := ⟨cornerThree, 7, fun _ => none⟩

/-- Example sorter: insertion sort that leaves equal candidates in the reverse of
their incoming order. -/
def reverseTiesSorter : Sorter := fun lt l => insertionSorter lt l.reverse

theorem inBoard_iff (y x : Int) :
    inBoard y x = true ↔ 0 ≤ y ∧ y < 15 ∧ 0 ≤ x ∧ x < 15 := by
  simp [inBoard, BOARD_SIZE, and_assoc]

theorem scanSide_spec (board : Board) (y x dy dx : Int) (p : Char)
    (hd : dy ≠ 0 ∨ dx ≠ 0) :
    ∀ (fuel : Nat) (i c o : Int), 1 ≤ i → 17 ≤ i + fuel →
      (∀ j : Int, 1 ≤ j → j < i →
        inBoard (y + j * dy) (x + j * dx) = true ∧ board (y + j * dy) (x + j * dx) = p) →
      ∃ a : Nat, i ≤ a + 1 ∧ IsSideRun board y x dy dx p a ∧
        scanSide board y x dy dx p fuel i (c, o)
          = some (c + (a + 1 - i), o + openSide board y x dy dx a) := by
  intro fuel
  induction fuel with
  | zero =>
    intro i c o hi hf hpre
    exfalso
    have h1 := (hpre 1 (by omega) (by omega)).1
    have h16 := (hpre 16 (by omega) (by omega)).1
    rw [inBoard_iff] at h1 h16
    omega
  | succ n ih =>
    intro i c o hi hf hpre
    have hcast : ((i - 1).toNat : Int) = i - 1 := Int.toNat_of_nonneg (by omega)
    have hcell : y + ((((i - 1).toNat : Nat) : Int) + 1) * dy = y + i * dy ∧
        x + ((((i - 1).toNat : Nat) : Int) + 1) * dx = x + i * dx := by
      rw [hcast]; constructor <;> ring_nf
    by_cases hin : inBoard (y + i * dy) (x + i * dx) = true
    · by_cases hp : board (y + i * dy) (x + i * dx) = p
      · obtain ⟨a, ha, hrun, heq⟩ := ih (i + 1) (c + 1) o (by omega) (by omega) (by
          intro j hj1 hj2
          by_cases hji : j = i
          · subst hji; exact ⟨hin, hp⟩
          · exact hpre j hj1 (by omega))
        refine ⟨a, by omega, hrun, ?_⟩
        have hb := (inBoard_iff _ _).1 hin
        simp only [scanSide, BOARD_SIZE]
        rw [if_neg (by omega), if_pos hp, heq]
        congr 2; ring
      · refine ⟨(i - 1).toNat, by omega, ⟨?_, ?_⟩, ?_⟩
        · intro j hj1 hj2
          exact hpre j hj1 (by omega)
        · rw [hcell.1, hcell.2]; exact fun h => hp h.2
        · have hb := (inBoard_iff _ _).1 hin
          simp only [scanSide, BOARD_SIZE, openSide]
          rw [if_neg (by omega), if_neg hp, hcell.1, hcell.2]
          by_cases he : board (y + i * dy) (x + i * dx) = EMPTY_CELL
          · rw [if_pos he, if_pos ⟨hin, he⟩]; congr 2; omega
          · rw [if_neg he, if_neg (fun h => he h.2)]; congr 2 <;> omega
    · refine ⟨(i - 1).toNat, by omega, ⟨?_, ?_⟩, ?_⟩
      · intro j hj1 hj2
        exact hpre j hj1 (by omega)
      · rw [hcell.1, hcell.2]; exact fun h => hin h.1
      · have hb : ¬ (0 ≤ y + i * dy ∧ y + i * dy < 15 ∧ 0 ≤ x + i * dx ∧ x + i * dx < 15) :=
          fun h => hin ((inBoard_iff _ _).2 h)
        simp only [scanSide, BOARD_SIZE, openSide]
        rw [if_pos (by omega), hcell.1, hcell.2, if_neg (fun h => hin h.1)]
        congr 2 <;> omega


theorem evaluateDirection_eq (board : Board) (y x dy dx : Int) (p : Char)
    (hd : dy ≠ 0 ∨ dx ≠ 0) :
    ∃ a b : Nat, IsSideRun board y x dy dx p a ∧ IsSideRun board y x (-dy) (-dx) p b ∧
      evaluateDirection board y x dy dx p
        = some (patternScore (1 + a + b)
            (openSide board y x dy dx a + openSide board y x (-dy) (-dx) b)) := by
  obtain ⟨a, -, hra, hea⟩ := scanSide_spec board y x dy dx p hd scanFuel 1 0 0
    (by omega) (by simp [scanFuel]) (by intro j h1 h2; omega)
  obtain ⟨b, -, hrb, heb⟩ := scanSide_spec board y x (-dy) (-dx) p (by omega) scanFuel 1
    (0 + ((a : Int) + 1 - 1)) (0 + openSide board y x dy dx a)
    (by omega) (by simp [scanFuel]) (by intro j h1 h2; omega)
  refine ⟨a, b, hra, hrb, ?_⟩
  simp only [evaluateDirection, hea, heb]
  congr 2 <;> ring

theorem directions_ne_zero (dy dx : Int) (hdir : (dy, dx) ∈ directions) : dy ≠ 0 ∨ dx ≠ 0 := by
  simp only [directions, List.mem_cons, Prod.mk.injEq, List.mem_singleton, List.mem_nil_iff,
    or_false] at hdir
  omega

theorem patternScore_mem (c o : Int) :
    patternScore c o = 0 ∨ patternScore c o = 100 ∨ patternScore c o = 1000 ∨
      patternScore c o = 10000 ∨ patternScore c o = 100000 ∨ patternScore c o = 1000000 := by
  unfold patternScore WIN_SCORE FOUR_SCORE BROKEN_FOUR_SCORE THREE_SCORE BROKEN_THREE_SCORE
  split_ifs <;> simp

theorem openSide_range (board : Board) (y x dy dx : Int) (a : Nat) :
    0 ≤ openSide board y x dy dx a ∧ openSide board y x dy dx a ≤ 1 := by
  unfold openSide; split_ifs <;> simp

/-- C1. For every cell and each of the four axis directions,
`evaluateDirection` returns the scoring table applied to the run through the
cell (1 + the two side runs) and to the number of open ends (0, 1 or 2):
a run of 5 or more scores 1000000, a run of 4 scores 100000 with two open ends
and 10000 otherwise, a run of 3 scores 1000 with two open ends and 100
otherwise, a shorter run scores 0. -/
theorem evaluateDirection_scoring_table (board : Board) (y x dy dx : Int) (p : Char)
    (hdir : (dy, dx) ∈ directions) :
    ∃ a b : Nat, IsSideRun board y x dy dx p a ∧ IsSideRun board y x (-dy) (-dx) p b ∧
      ∃ run openEnds : Int, run = 1 + a + b ∧
        openEnds = openSide board y x dy dx a + openSide board y x (-dy) (-dx) b ∧
        0 ≤ openEnds ∧ openEnds ≤ 2 ∧
        evaluateDirection board y x dy dx p
          = some (if run ≥ 5 then 1000000
              else if run = 4 then (if openEnds = 2 then 100000 else 10000)
              else if run = 3 then (if openEnds = 2 then 1000 else 100)
              else 0) := by
  obtain ⟨a, b, hra, hrb, he⟩ :=
    evaluateDirection_eq board y x dy dx p (directions_ne_zero dy dx hdir)
  have h1 := openSide_range board y x dy dx a
  have h2 := openSide_range board y x (-dy) (-dx) b
  refine ⟨a, b, hra, hrb, _, _, rfl, rfl, by omega, by omega, ?_⟩
  rw [he]; rfl

theorem evaluateDirection_scoring_table_witness :
    ∃ a b : Nat, IsSideRun fourInRow 7 4 0 1 AI_PIECE a ∧
      IsSideRun fourInRow 7 4 (-0) (-1) AI_PIECE b ∧
      ∃ run openEnds : Int, run = 1 + a + b ∧
        openEnds = openSide fourInRow 7 4 0 1 a + openSide fourInRow 7 4 (-0) (-1) b ∧
        0 ≤ openEnds ∧ openEnds ≤ 2 ∧
        evaluateDirection fourInRow 7 4 0 1 AI_PIECE
          = some (if run ≥ 5 then 1000000
              else if run = 4 then (if openEnds = 2 then 100000 else 10000)
              else if run = 3 then (if openEnds = 2 then 1000 else 100)
              else 0) :=
  evaluateDirection_scoring_table fourInRow 7 4 0 1 AI_PIECE (by decide)

/-! ## getNearbyMoves -/

theorem scanDx_found (board : Board) (y x dy : Int) (l : List Int) (m : List Move) :
    scanDx board y x dy l (true, m) = (true, m) := by
  cases l <;> simp [scanDx]

theorem scanDx_eq (board : Board) (y x dy : Int) (l : List Int) (m : List Move) :
    scanDx board y x dy l (false, m)
      = if l.any (fun dx => neighbourTest board y x dy dx) = true
        then (true, m ++ [(y, x)]) else (false, m) := by
  induction l with
  | nil => simp [scanDx]
  | cons dx rest ih =>
    by_cases h0 : dy = 0 ∧ dx = 0
    · simp [scanDx, h0, neighbourTest] at ih ⊢
      simpa [neighbourTest, h0.1] using ih
    · by_cases h1 : inBoard (y + dy) (x + dx) = true ∧ board (y + dy) (x + dx) ≠ EMPTY_CELL
      · have : neighbourTest board y x dy dx = true := by
          simp [neighbourTest, h0, h1.1, h1.2]
        simp [scanDx, h0, h1, scanDx_found, this]
      · have : neighbourTest board y x dy dx = false := by
          simp only [neighbourTest, Bool.and_eq_false_imp, Bool.not_eq_eq_eq_not, Bool.not_true,
            decide_eq_false_iff_not, decide_eq_true_eq]
          intro _ hb; simpa using fun hh => h1 ⟨hb, hh⟩
        simp only [scanDx, Bool.false_eq_true, if_false, h0, h1, List.any_cons, this,
          Bool.false_or]
        exact ih

theorem scanDy_found (board : Board) (y x : Int) (l : List Int) (m : List Move) :
    scanDy board y x l (true, m) = (true, m) := by
  cases l <;> simp [scanDy]

theorem scanDy_eq (board : Board) (y x : Int) (l : List Int) (m : List Move) :
    scanDy board y x l (false, m)
      = if l.any (fun dy => offsets.any (fun dx => neighbourTest board y x dy dx)) = true
        then (true, m ++ [(y, x)]) else (false, m) := by
  induction l with
  | nil => simp [scanDy]
  | cons dy rest ih =>
    simp only [scanDy, Bool.false_eq_true, if_false, scanDx_eq, List.any_cons]
    by_cases h : offsets.any (fun dx => neighbourTest board y x dy dx) = true
    · simp [h, scanDy_found]
    · simp only [h, if_false, Bool.or_eq_true, false_or]
      simpa using ih

theorem scanCell_eq (board : Board) (y x : Int) (m : List Move) :
    scanCell board y m x
      = if (decide (board y x = EMPTY_CELL) && hasNeighbour board y x) = true
        then m ++ [(y, x)] else m := by
  unfold scanCell hasNeighbour
  by_cases he : board y x = EMPTY_CELL
  · simp only [he, ne_eq, not_true_eq_false, if_false, scanDy_eq, decide_True, Bool.true_and]
    split_ifs <;> rfl
  · simp [he]

theorem scanRow_eq (board : Board) (y : Int) (l : List Int) (m : List Move) :
    l.foldl (scanCell board y) m
      = m ++ (l.filter (fun x => decide (board y x = EMPTY_CELL) && hasNeighbour board y x)).map
          (fun x => (y, x)) := by
  induction l generalizing m with
  | nil => simp
  | cons x rest ih =>
    rw [List.foldl_cons, ih, scanCell_eq]
    by_cases h : (decide (board y x = EMPTY_CELL) && hasNeighbour board y x) = true
    · simp [h, List.filter_cons]
    · simp [h, List.filter_cons]

theorem scanRows_eq (board : Board) (l : List Int) (m : List Move) :
    l.foldl (scanRow board) m = m ++ l.flatMap (nearRow board) := by
  induction l generalizing m with
  | nil => simp
  | cons y rest ih =>
    rw [List.foldl_cons, ih]
    simp [scanRow, scanRow_eq, nearRow, List.flatMap_cons]

theorem getNearbyMoves_eq (board : Board) :
    getNearbyMoves board
      = if (nearCells board).isEmpty = true then [(7, 7)] else nearCells board := by
  unfold getNearbyMoves
  simp only [scanRows_eq, List.nil_append]
  rfl

theorem mem_indices (x : Int) : x ∈ indices ↔ 0 ≤ x ∧ x < 15 := by
  unfold indices
  simp only [List.mem_map, List.mem_range]
  constructor
  · rintro ⟨n, hn, rfl⟩
    simp only [Int.ofNat_eq_coe]
    omega
  · rintro ⟨h0, h1⟩
    exact ⟨x.toNat, by omega, by simp [Int.toNat_of_nonneg h0]⟩

theorem indices_sorted : indices.Pairwise (fun a b : Int => a < b) := by
  decide

theorem hasNeighbour_iff (board : Board) (y x : Int) :
    hasNeighbour board y x = true ↔ HasStoneNeighbour board y x := by
  unfold hasNeighbour HasStoneNeighbour
  constructor
  · intro h
    simp only [offsets, List.any_eq_true] at h
    obtain ⟨dy, hdy, dx, hdx, ht⟩ := h
    simp only [neighbourTest, Bool.and_eq_true, Bool.not_eq_true', decide_eq_false_iff_not,
      decide_eq_true_eq] at ht
    refine ⟨y + dy, x + dx, ht.2.1, ?_, ht.2.2⟩
    simp only [List.mem_cons, List.mem_singleton, List.mem_nil_iff, or_false] at hdy hdx
    have e1 : y + dy - y = dy := by ring
    have e2 : x + dx - x = dx := by ring
    rw [e1, e2]
    have h0 := ht.1
    rcases hdy with rfl | rfl | rfl <;> rcases hdx with rfl | rfl | rfl <;> simp at h0 ⊢
  · rintro ⟨ny, nx, hin, hdist, hocc⟩
    simp only [offsets, List.any_eq_true]
    have hy : |ny - y| ≤ 1 := by rw [← hdist]; exact le_max_left _ _
    have hx : |nx - x| ≤ 1 := by rw [← hdist]; exact le_max_right _ _
    rw [abs_le] at hy hx
    have hne : ¬ (ny - y = 0 ∧ nx - x = 0) := by
      rintro ⟨h1, h2⟩
      rw [h1, h2] at hdist
      simp at hdist
    refine ⟨ny - y, ?_, nx - x, ?_, ?_⟩
    · simp only [List.mem_cons, List.mem_singleton, List.mem_nil_iff, or_false]; omega
    · simp only [List.mem_cons, List.mem_singleton, List.mem_nil_iff, or_false]; omega
    · have e1 : y + (ny - y) = ny := by ring
      have e2 : x + (nx - x) = nx := by ring
      simp [neighbourTest, e1, e2, hin, hocc, hne]

theorem mem_nearCells (board : Board) (y x : Int) :
    (y, x) ∈ nearCells board ↔
      inBoard y x = true ∧ board y x = EMPTY_CELL ∧ HasStoneNeighbour board y x := by
  unfold nearCells nearRow
  simp only [List.mem_flatMap, List.mem_map, List.mem_filter, Prod.mk.injEq, Bool.and_eq_true,
    decide_eq_true_eq, mem_indices, hasNeighbour_iff, inBoard_iff]
  constructor
  · rintro ⟨y', hy', x', ⟨hx', he, hn⟩, rfl, rfl⟩
    exact ⟨⟨hy'.1, hy'.2, hx'.1, hx'.2⟩, he, hn⟩
  · rintro ⟨⟨h1, h2, h3, h4⟩, he, hn⟩
    exact ⟨y, ⟨h1, h2⟩, x, ⟨⟨h3, h4⟩, he, hn⟩, rfl, rfl⟩

theorem nearRow_sorted (board : Board) (y : Int) :
    (nearRow board y).Pairwise rowMajorLt := by
  unfold nearRow
  rw [List.pairwise_map]
  exact (indices_sorted.filter _).imp (fun h => Or.inr ⟨rfl, h⟩)

theorem nearRow_fst (board : Board) (y : Int) (m : Move) (h : m ∈ nearRow board y) :
    m.1 = y := by
  unfold nearRow at h
  simp only [List.mem_map] at h
  obtain ⟨x, -, rfl⟩ := h
  rfl

theorem nearCells_sorted (board : Board) : (nearCells board).Pairwise rowMajorLt := by
  unfold nearCells
  rw [List.pairwise_flatMap]
  refine ⟨fun y _ => nearRow_sorted board y, ?_⟩
  refine indices_sorted.imp ?_
  intro a b hab m hm n hn
  left
  rw [nearRow_fst board a m hm, nearRow_fst board b n hn]
  exact hab

theorem rowMajorLt_nodup (l : List Move) (h : l.Pairwise rowMajorLt) : l.Nodup := by
  refine h.imp ?_
  intro a b hab heq
  subst heq
  unfold rowMajorLt at hab
  omega

theorem hasStoneNeighbour_of_offset (board : Board) (y x dy dx : Int)
    (hdy : -1 ≤ dy ∧ dy ≤ 1) (hdx : -1 ≤ dx ∧ dx ≤ 1) (hne : dy ≠ 0 ∨ dx ≠ 0)
    (hin : inBoard (y + dy) (x + dx) = true) (hocc : board (y + dy) (x + dx) ≠ EMPTY_CELL) :
    HasStoneNeighbour board y x := by
  rw [← hasNeighbour_iff]
  simp only [hasNeighbour, offsets, List.any_eq_true]
  refine ⟨dy, ?_, dx, ?_, ?_⟩
  · simp only [List.mem_cons, List.mem_singleton, List.mem_nil_iff, or_false]; omega
  · simp only [List.mem_cons, List.mem_singleton, List.mem_nil_iff, or_false]; omega
  · have : ¬ (dy = 0 ∧ dx = 0) := by omega
    simp [neighbourTest, hin, hocc, this]

theorem nearCells_eq_nil_iff (board : Board) :
    nearCells board = [] ↔
      ∀ y x, inBoard y x = true → board y x = EMPTY_CELL → ¬ HasStoneNeighbour board y x := by
  rw [List.eq_nil_iff_forall_not_mem]
  constructor
  · intro h y x hin he hn
    exact h (y, x) ((mem_nearCells board y x).2 ⟨hin, he, hn⟩)
  · rintro h ⟨y, x⟩ hm
    obtain ⟨hin, he, hn⟩ := (mem_nearCells board y x).1 hm
    exact h y x hin he hn

theorem getNearbyMoves_of_nearCells_nil (board : Board) (h : nearCells board = []) :
    getNearbyMoves board = [(7, 7)] := by
  rw [getNearbyMoves_eq, h]; rfl

theorem getNearbyMoves_of_nearCells_ne_nil (board : Board) (h : nearCells board ≠ []) :
    getNearbyMoves board = nearCells board := by
  rw [getNearbyMoves_eq]
  cases hc : nearCells board with
  | nil => exact absurd hc h
  | cons a l => rfl

theorem getNearbyMoves_ne_nil (board : Board) : getNearbyMoves board ≠ [] := by
  by_cases h : nearCells board = []
  · rw [getNearbyMoves_of_nearCells_nil board h]; simp
  · rw [getNearbyMoves_of_nearCells_ne_nil board h]; exact h

/-- When no empty cell touches a stone, emptiness spreads from any empty cell
to the centre along a path of king moves. -/
theorem centre_empty_of_isolated (board : Board)
    (hiso : ∀ y x, inBoard y x = true → board y x = EMPTY_CELL → ¬ HasStoneNeighbour board y x) :
    ∀ (n : Nat) (y x : Int), inBoard y x = true → board y x = EMPTY_CELL →
      7 - (n : Int) ≤ y → y ≤ 7 + n → 7 - (n : Int) ≤ x → x ≤ 7 + n →
      board 7 7 = EMPTY_CELL := by
  intro n
  induction n with
  | zero =>
    intro y x _ he h1 h2 h3 h4
    have hy : y = 7 := by omega
    have hx : x = 7 := by omega
    subst hy hx; exact he
  | succ n ih =>
    intro y x hin he h1 h2 h3 h4
    by_cases hc : y = 7 ∧ x = 7
    · obtain ⟨hy, hx⟩ := hc
      subst hy hx; exact he
    · have hb := (inBoard_iff y x).1 hin
      obtain ⟨dy, hdy1, hdy2, hdy3⟩ : ∃ dy : Int, (-1 ≤ dy ∧ dy ≤ 1) ∧
          (dy = 0 ↔ y = 7) ∧ (7 - (n : Int) ≤ y + dy ∧ y + dy ≤ 7 + n ∧ 0 ≤ y + dy ∧ y + dy < 15) := by
        rcases lt_trichotomy y 7 with h | h | h
        · exact ⟨1, by omega, by omega, by omega⟩
        · exact ⟨0, by omega, by omega, by omega⟩
        · exact ⟨-1, by omega, by omega, by omega⟩
      obtain ⟨dx, hdx1, hdx2, hdx3⟩ : ∃ dx : Int, (-1 ≤ dx ∧ dx ≤ 1) ∧
          (dx = 0 ↔ x = 7) ∧ (7 - (n : Int) ≤ x + dx ∧ x + dx ≤ 7 + n ∧ 0 ≤ x + dx ∧ x + dx < 15) := by
        rcases lt_trichotomy x 7 with h | h | h
        · exact ⟨1, by omega, by omega, by omega⟩
        · exact ⟨0, by omega, by omega, by omega⟩
        · exact ⟨-1, by omega, by omega, by omega⟩
      have hin' : inBoard (y + dy) (x + dx) = true := by
        rw [inBoard_iff]; omega
      have he' : board (y + dy) (x + dx) = EMPTY_CELL := by
        by_contra hocc
        exact hiso y x hin he
          (hasStoneNeighbour_of_offset board y x dy dx hdy1 hdx1 (by omega) hin' hocc)
      exact ih (y + dy) (x + dx) hin' he' (by omega) (by omega) (by omega) (by omega)

theorem centre_empty_of_nearCells_nil (board : Board) (h : nearCells board = [])
    (hex : ∃ y x, inBoard y x = true ∧ board y x = EMPTY_CELL) : board 7 7 = EMPTY_CELL := by
  obtain ⟨y, x, hin, he⟩ := hex
  have hb := (inBoard_iff y x).1 hin
  exact centre_empty_of_isolated board ((nearCells_eq_nil_iff board).1 h) 7 y x hin he
    (by push_cast; omega) (by push_cast; omega) (by push_cast; omega) (by push_cast; omega)

theorem getNearbyMoves_all_empty (board : Board)
    (hall : ∀ y x, inBoard y x = true → board y x = EMPTY_CELL) :
    getNearbyMoves board = [(7, 7)] := by
  apply getNearbyMoves_of_nearCells_nil
  rw [nearCells_eq_nil_iff]
  rintro y x - - ⟨ny, nx, hin, -, hocc⟩
  exact hocc (hall ny nx hin)

/-- C2. On a board where some empty cell touches a stone, `getNearbyMoves`
returns exactly the on-board empty cells that have an occupied on-board cell
at Chebyshev distance 1, each exactly once, in row-major order. -/
theorem getNearbyMoves_exact (board : Board)
    (h : ∃ y x, inBoard y x = true ∧ board y x = EMPTY_CELL ∧ HasStoneNeighbour board y x) :
    (∀ y x, (y, x) ∈ getNearbyMoves board ↔
        inBoard y x = true ∧ board y x = EMPTY_CELL ∧ HasStoneNeighbour board y x) ∧
      (getNearbyMoves board).Pairwise rowMajorLt ∧ (getNearbyMoves board).Nodup := by
  obtain ⟨y0, x0, hq⟩ := h
  have hne : nearCells board ≠ [] :=
    List.ne_nil_of_mem ((mem_nearCells board y0 x0).2 hq)
  rw [getNearbyMoves_of_nearCells_ne_nil board hne]
  exact ⟨fun y x => mem_nearCells board y x, nearCells_sorted board,
    rowMajorLt_nodup _ (nearCells_sorted board)⟩

theorem getNearbyMoves_exact_witness :
    (∀ y x, (y, x) ∈ getNearbyMoves fourInRow ↔
        inBoard y x = true ∧ fourInRow y x = EMPTY_CELL ∧ HasStoneNeighbour fourInRow y x) ∧
      (getNearbyMoves fourInRow).Pairwise rowMajorLt ∧ (getNearbyMoves fourInRow).Nodup :=
  getNearbyMoves_exact fourInRow
    ⟨7, 2, by decide, by decide, 7, 3, by decide, by simp, by decide⟩

/-- C3. `getNearbyMoves` never returns the empty list; on a board whose 225
cells are all empty it returns exactly `[(7, 7)]`; hence at every depth other
than 0 `negamax` runs its candidate loop and never leaves through the
`moves.empty()` branch. -/
theorem getNearbyMoves_nonempty (zobristTable : ZobristTable) (sortMoves : Sorter)
    (depth : Nat) (alpha beta : Int) (player : Char) (s : State) :
    getNearbyMoves s.board ≠ [] ∧
      ((∀ y x, inBoard y x = true → s.board y x = EMPTY_CELL) →
        getNearbyMoves s.board = [(7, 7)]) ∧
      (depth ≠ 0 →
        negamax zobristTable sortMoves depth alpha beta player s
          = searchLoop zobristTable
              (if depth ≥ 3 then some (negamax zobristTable sortMoves (depth - 1 - 2)) else none)
              (negamax zobristTable sortMoves (depth - 1))
              beta player (sortMoves (moveOrder s.board) (getNearbyMoves s.board))
              alpha INT_MIN s) := by
  refine ⟨getNearbyMoves_ne_nil s.board, ?_, ?_⟩
  · exact getNearbyMoves_all_empty s.board
  · intro hd
    rw [negamax]
    have hne : (getNearbyMoves s.board).isEmpty = false := by
      cases hg : getNearbyMoves s.board with
      | nil => exact absurd hg (getNearbyMoves_ne_nil s.board)
      | cons a l => rfl
    simp only [hd, dite_false, hne, Bool.false_eq_true, if_false]
    split_ifs <;> rfl

theorem getNearbyMoves_nonempty_witness :
    getNearbyMoves emptyState.board ≠ [] ∧ getNearbyMoves emptyState.board = [(7, 7)] ∧
      negamax testKeys insertionSorter 1 0 0 HUMAN_PIECE emptyState
        = searchLoop testKeys
            (if 1 ≥ 3 then some (negamax testKeys insertionSorter (1 - 1 - 2)) else none)
            (negamax testKeys insertionSorter (1 - 1))
            0 HUMAN_PIECE
            (insertionSorter (moveOrder emptyState.board) (getNearbyMoves emptyState.board))
            0 INT_MIN emptyState :=
  have h := getNearbyMoves_nonempty testKeys insertionSorter 1 0 0 HUMAN_PIECE emptyState
  ⟨h.1, h.2.1 (fun _ _ _ => rfl), h.2.2 (by decide)⟩

/-- C4, as stated, fails: on the board with no empty cell `getNearbyMoves`
returns the centre cell, which is occupied. -/
theorem getNearbyMoves_full_board_not_empty_cell :
    getNearbyMoves fullBoard = [(7, 7)] ∧ fullBoard 7 7 ≠ EMPTY_CELL ∧
      ¬ (∀ board : Board, ∀ m ∈ getNearbyMoves board, board m.1 m.2 = EMPTY_CELL) := by
  have h1 : getNearbyMoves fullBoard = [(7, 7)] := by
    apply getNearbyMoves_of_nearCells_nil
    rw [nearCells_eq_nil_iff]
    intro y x _ he
    simp [fullBoard, HUMAN_PIECE, EMPTY_CELL] at he
  refine ⟨h1, by decide, ?_⟩
  intro hall
  have := hall fullBoard (7, 7) (by rw [h1]; simp)
  exact absurd this (by decide)

/-- C4, amended. The coordinates returned by `getNearbyMoves` are pairwise
distinct on every board, and on every board that has at least one empty cell
each of them is an on-board empty cell. -/
theorem getNearbyMoves_distinct_empty (board : Board) :
    (getNearbyMoves board).Nodup ∧
      ((∃ y x, inBoard y x = true ∧ board y x = EMPTY_CELL) →
        ∀ m ∈ getNearbyMoves board, inBoard m.1 m.2 = true ∧ board m.1 m.2 = EMPTY_CELL) := by
  by_cases h : nearCells board = []
  · rw [getNearbyMoves_of_nearCells_nil board h]
    refine ⟨by simp, ?_⟩
    intro hex m hm
    simp only [List.mem_singleton] at hm
    subst hm
    exact ⟨by decide, centre_empty_of_nearCells_nil board h hex⟩
  · rw [getNearbyMoves_of_nearCells_ne_nil board h]
    refine ⟨rowMajorLt_nodup _ (nearCells_sorted board), ?_⟩
    rintro - ⟨y, x⟩ hm
    obtain ⟨hin, he, -⟩ := (mem_nearCells board y x).1 hm
    exact ⟨hin, he⟩

theorem getNearbyMoves_distinct_empty_witness :
    (getNearbyMoves fourInRow).Nodup ∧
      ∀ m ∈ getNearbyMoves fourInRow, inBoard m.1 m.2 = true ∧ fourInRow m.1 m.2 = EMPTY_CELL :=
  have h := getNearbyMoves_distinct_empty fourInRow
  ⟨h.1, h.2 ⟨0, 0, by decide, by decide⟩⟩

/-! ## Static score: no overflow -/

theorem wrapInt32_of_range (z : Int) (h1 : -2147483648 ≤ z) (h2 : z ≤ 2147483647) :
    wrapInt32 z = z := by
  unfold wrapInt32; omega

theorem wrapInt32_range (z : Int) :
    -2147483648 ≤ wrapInt32 z ∧ wrapInt32 z ≤ 2147483647 := by
  unfold wrapInt32; omega

theorem evaluateDirection_range (board : Board) (y x dy dx : Int) (p : Char) (v : Int)
    (h : evaluateDirection board y x dy dx p = some v) : 0 ≤ v ∧ v ≤ 1000000 := by
  unfold evaluateDirection at h
  split at h
  · exact absurd h (by simp)
  · split at h
    · exact absurd h (by simp)
    · rename_i c o _
      simp only [Option.some.injEq] at h
      rcases patternScore_mem (c + 1) o with h' | h' | h' | h' | h' | h' <;> omega

theorem evaluateDirection_isSome (board : Board) (y x dy dx : Int) (p : Char)
    (hdir : (dy, dx) ∈ directions) : ∃ v, evaluateDirection board y x dy dx p = some v := by
  obtain ⟨a, b, -, -, h⟩ := evaluateDirection_eq board y x dy dx p (directions_ne_zero dy dx hdir)
  exact ⟨_, h⟩

theorem evaluatePosition_eq (board : Board) (y x : Int) (p : Char) :
    ∃ v1 v2 v3 v4 : Int,
      evaluateDirection board y x 0 1 p = some v1 ∧
      evaluateDirection board y x 1 0 p = some v2 ∧
      evaluateDirection board y x 1 1 p = some v3 ∧
      evaluateDirection board y x 1 (-1) p = some v4 ∧
      evaluatePosition board y x p = v1 + v2 + v3 + v4 := by
  obtain ⟨v1, h1⟩ := evaluateDirection_isSome board y x 0 1 p (by decide)
  obtain ⟨v2, h2⟩ := evaluateDirection_isSome board y x 1 0 p (by decide)
  obtain ⟨v3, h3⟩ := evaluateDirection_isSome board y x 1 1 p (by decide)
  obtain ⟨v4, h4⟩ := evaluateDirection_isSome board y x 1 (-1) p (by decide)
  have r1 := evaluateDirection_range _ _ _ _ _ _ _ h1
  have r2 := evaluateDirection_range _ _ _ _ _ _ _ h2
  have r3 := evaluateDirection_range _ _ _ _ _ _ _ h3
  have r4 := evaluateDirection_range _ _ _ _ _ _ _ h4
  refine ⟨v1, v2, v3, v4, h1, h2, h3, h4, ?_⟩
  simp only [evaluatePosition, directions, List.foldl_cons, List.foldl_nil, h1, h2, h3, h4,
    Option.getD_some, addInt32]
  rw [wrapInt32_of_range (0 + v1) (by omega) (by omega),
    wrapInt32_of_range (0 + v1 + v2) (by omega) (by omega),
    wrapInt32_of_range (0 + v1 + v2 + v3) (by omega) (by omega),
    wrapInt32_of_range (0 + v1 + v2 + v3 + v4) (by omega) (by omega)]
  ring

theorem evaluatePosition_range (board : Board) (y x : Int) (p : Char) :
    0 ≤ evaluatePosition board y x p ∧ evaluatePosition board y x p ≤ 4000000 := by
  obtain ⟨v1, v2, v3, v4, h1, h2, h3, h4, h⟩ := evaluatePosition_eq board y x p
  have r1 := evaluateDirection_range _ _ _ _ _ _ _ h1
  have r2 := evaluateDirection_range _ _ _ _ _ _ _ h2
  have r3 := evaluateDirection_range _ _ _ _ _ _ _ h3
  have r4 := evaluateDirection_range _ _ _ _ _ _ _ h4
  omega

theorem ownedSum_nil (board : Board) (p : Char) : ownedSum board p [] = 0 := rfl

theorem ownedSum_cons (board : Board) (p : Char) (c : Move) (l : List Move) :
    ownedSum board p (c :: l)
      = (if board c.1 c.2 = p then evaluatePosition board c.1 c.2 p else 0)
        + ownedSum board p l := by
  unfold ownedSum
  by_cases h : board c.1 c.2 = p <;> simp [List.filter_cons, h]

theorem ownedSum_range (board : Board) (p : Char) (l : List Move) :
    0 ≤ ownedSum board p l ∧ ownedSum board p l ≤ 4000000 * l.length := by
  induction l with
  | nil => simp [ownedSum_nil]
  | cons c l ih =>
    rw [ownedSum_cons]
    have := evaluatePosition_range board c.1 c.2 p
    simp only [List.length_cons, Nat.cast_add, Nat.cast_one]
    split_ifs <;> omega

theorem scoreFold_flat (board : Board) (cols rows : List Int) (acc : Int × Int) :
    rows.foldl (fun acc y => cols.foldl (scoreCell board y) acc) acc
      = (rows.flatMap (fun y => cols.map (fun x => (y, x)))).foldl
          (fun acc c => scoreCell board c.1 acc c.2) acc := by
  induction rows generalizing acc with
  | nil => rfl
  | cons y rest ih =>
    rw [List.foldl_cons, ih, List.flatMap_cons, List.foldl_append, List.foldl_map]

theorem scanScores_flat (board : Board) :
    scanScores board = cells.foldl (fun acc c => scoreCell board c.1 acc c.2) (0, 0) :=
  scoreFold_flat board indices indices (0, 0)

theorem scoreCell_eq (board : Board) (c : Move) (acc : Int × Int)
    (h1 : 0 ≤ acc.1) (h2 : acc.1 ≤ 896000000) (h3 : 0 ≤ acc.2) (h4 : acc.2 ≤ 896000000) :
    scoreCell board c.1 acc c.2
      = (acc.1 + (if board c.1 c.2 = AI_PIECE then evaluatePosition board c.1 c.2 AI_PIECE else 0),
         acc.2 + (if board c.1 c.2 = HUMAN_PIECE
                  then evaluatePosition board c.1 c.2 HUMAN_PIECE else 0)) := by
  have hr1 := evaluatePosition_range board c.1 c.2 AI_PIECE
  have hr2 := evaluatePosition_range board c.1 c.2 HUMAN_PIECE
  have hne : ¬ AI_PIECE = HUMAN_PIECE := by decide
  unfold scoreCell addInt32
  by_cases ha : board c.1 c.2 = AI_PIECE
  · have hh : ¬ board c.1 c.2 = HUMAN_PIECE := fun h => hne (ha.symm.trans h)
    rw [if_pos ha, if_pos ha, if_neg hh, wrapInt32_of_range _ (by omega) (by omega), add_zero]
  · by_cases hh : board c.1 c.2 = HUMAN_PIECE
    · rw [if_neg ha, if_neg ha, if_pos hh, if_pos hh,
        wrapInt32_of_range _ (by omega) (by omega), add_zero]
    · rw [if_neg ha, if_neg ha, if_neg hh, if_neg hh, add_zero, add_zero]

theorem scoreFold_eq (board : Board) (l : List Move) (acc : Int × Int)
    (h1 : 0 ≤ acc.1) (h2 : acc.1 + 4000000 * l.length ≤ 900000000)
    (h3 : 0 ≤ acc.2) (h4 : acc.2 + 4000000 * l.length ≤ 900000000) :
    l.foldl (fun acc c => scoreCell board c.1 acc c.2) acc
      = (acc.1 + ownedSum board AI_PIECE l, acc.2 + ownedSum board HUMAN_PIECE l) := by
  induction l generalizing acc with
  | nil => simp [ownedSum_nil]
  | cons c l ih =>
    simp only [List.length_cons, Nat.cast_add, Nat.cast_one] at h2 h4
    have hr1 := evaluatePosition_range board c.1 c.2 AI_PIECE
    have hr2 := evaluatePosition_range board c.1 c.2 HUMAN_PIECE
    rw [List.foldl_cons, ownedSum_cons, ownedSum_cons,
      scoreCell_eq board c acc h1 (by omega) h3 (by omega)]
    rw [ih _ (by simp only; split_ifs <;> omega) (by simp only; split_ifs <;> omega)
      (by simp only; split_ifs <;> omega) (by simp only; split_ifs <;> omega)]
    congr 1 <;> ring

theorem mem_cells (c : Move) : c ∈ cells ↔ inBoard c.1 c.2 = true := by
  obtain ⟨y, x⟩ := c
  unfold cells
  simp only [List.mem_flatMap, List.mem_map, Prod.mk.injEq, mem_indices, inBoard_iff]
  constructor
  · rintro ⟨y', hy', x', hx', rfl, rfl⟩
    exact ⟨hy'.1, hy'.2, hx'.1, hx'.2⟩
  · rintro ⟨h1, h2, h3, h4⟩
    exact ⟨y, ⟨h1, h2⟩, x, ⟨h3, h4⟩, rfl, rfl⟩

theorem cells_nodup : cells.Nodup := by
  apply rowMajorLt_nodup
  unfold cells
  rw [List.pairwise_flatMap]
  constructor
  · intro y _
    rw [List.pairwise_map]
    exact indices_sorted.imp (fun h => Or.inr ⟨rfl, h⟩)
  · refine indices_sorted.imp ?_
    intro a b hab m hm n hn
    simp only [List.mem_map] at hm hn
    obtain ⟨_, -, rfl⟩ := hm
    obtain ⟨_, -, rfl⟩ := hn
    exact Or.inl hab

set_option maxRecDepth 20000 in
theorem cells_length : cells.length = 225 := by
  decide

theorem scanScores_eq (board : Board) :
    scanScores board = (sideScore board AI_PIECE, sideScore board HUMAN_PIECE) := by
  rw [scanScores_flat, scoreFold_eq board cells (0, 0) (by simp) (by simp [cells_length])
    (by simp) (by simp [cells_length])]
  simp [sideScore, ownedSum]

theorem sideScore_range (board : Board) (p : Char) :
    0 ≤ sideScore board p ∧ sideScore board p ≤ 900000000 := by
  have h := ownedSum_range board p cells
  rw [cells_length] at h
  have e : sideScore board p = ownedSum board p cells := rfl
  rw [e]
  constructor
  · exact h.1
  · refine h.2.trans ?_
    norm_num

theorem staticScore_eq (board : Board) :
    staticScore board = sideScore board AI_PIECE - 2 * sideScore board HUMAN_PIECE := by
  have ha := sideScore_range board AI_PIECE
  have hh := sideScore_range board HUMAN_PIECE
  simp only [staticScore, scanScores_eq, subInt32, mulInt32]
  rw [wrapInt32_of_range (sideScore board HUMAN_PIECE * 2) (by omega) (by omega),
    wrapInt32_of_range _ (by omega) (by omega)]
  ring

theorem staticScore_range (board : Board) :
    -1800000000 ≤ staticScore board ∧ staticScore board ≤ 900000000 := by
  have ha := sideScore_range board AI_PIECE
  have hh := sideScore_range board HUMAN_PIECE
  rw [staticScore_eq]
  omega

/-! ## Apply/undo, evaluateGameState, depth 0, empty board -/

theorem updateHash_updateHash (zobristTable : ZobristTable) (y x : Int) (p : Char) (h : Nat) :
    updateHash zobristTable y x p (updateHash zobristTable y x p h) = h := by
  simp only [updateHash]
  exact Nat.xor_cancel_right _ _

theorem setCell_setCell_empty (board : Board) (y x : Int) (p : Char)
    (hempty : board y x = EMPTY_CELL) :
    setCell (setCell board y x p) y x EMPTY_CELL = board := by
  funext y' x'
  unfold setCell
  by_cases h : y' = y ∧ x' = x
  · rw [if_pos h, h.1, h.2, hempty]
  · rw [if_neg h, if_neg h]

/-- C5, as stated, fails: a move applied on an occupied cell and undone
leaves the cell empty, not as it was. -/
theorem apply_undo_occupied_differs :
    (undoMove testKeys (makeMove testKeys fullState 7 7 AI_PIECE) 7 7 AI_PIECE).board 7 7
        ≠ fullState.board 7 7 ∧
      ¬ (∀ (zobristTable : ZobristTable) (s : State) (y x : Int) (p : Char),
          inBoard y x = true →
          (undoMove zobristTable (makeMove zobristTable s y x p) y x p).board = s.board) := by
  have h : (undoMove testKeys (makeMove testKeys fullState 7 7 AI_PIECE) 7 7 AI_PIECE).board 7 7
      ≠ fullState.board 7 7 := by decide
  refine ⟨h, fun hall => h ?_⟩
  rw [hall testKeys fullState 7 7 AI_PIECE (by decide)]

/-- C5, amended. Applying a move and undoing it at once restores
`currentHash` (and leaves the transposition table alone) for every board,
cell and player, and restores the whole state, cell grid included, whenever
the cell was empty before the move. -/
theorem apply_undo_restores (zobristTable : ZobristTable) (s : State) (y x : Int) (p : Char) :
    (undoMove zobristTable (makeMove zobristTable s y x p) y x p).currentHash = s.currentHash ∧
      (undoMove zobristTable (makeMove zobristTable s y x p) y x p).transpositionTable
        = s.transpositionTable ∧
      (s.board y x = EMPTY_CELL →
        undoMove zobristTable (makeMove zobristTable s y x p) y x p = s) := by
  refine ⟨updateHash_updateHash _ _ _ _ _, rfl, ?_⟩
  intro hempty
  cases s with
  | mk board hash table =>
    simp only [undoMove, makeMove, updateHash_updateHash]
    rw [setCell_setCell_empty board y x p hempty]

theorem apply_undo_restores_witness :
    (undoMove testKeys (makeMove testKeys emptyState 7 7 AI_PIECE) 7 7 AI_PIECE).currentHash
        = emptyState.currentHash ∧
      (undoMove testKeys (makeMove testKeys emptyState 7 7 AI_PIECE) 7 7 AI_PIECE).transpositionTable
        = emptyState.transpositionTable ∧
      undoMove testKeys (makeMove testKeys emptyState 7 7 AI_PIECE) 7 7 AI_PIECE = emptyState :=
  have h := apply_undo_restores testKeys emptyState 7 7 AI_PIECE
  ⟨h.1, h.2.1, h.2.2 rfl⟩

theorem evaluateGameState_of_miss (s : State)
    (hmiss : s.transpositionTable s.currentHash = none) :
    evaluateGameState s = (staticScore s.board,
      { s with transpositionTable := fun h =>
          if h = s.currentHash then some (staticScore s.board) else s.transpositionTable h }) := by
  unfold evaluateGameState
  rw [hmiss]

theorem evaluateGameState_hit (s : State) (v : Int)
    (hhit : s.transpositionTable s.currentHash = some v) : evaluateGameState s = (v, s) := by
  unfold evaluateGameState
  rw [hhit]

theorem evaluateGameState_cached (s : State) :
    (evaluateGameState s).2.transpositionTable (evaluateGameState s).2.currentHash
      = some (evaluateGameState s).1 := by
  cases hc : s.transpositionTable s.currentHash with
  | some v => rw [evaluateGameState_hit s v hc]; exact hc
  | none => rw [evaluateGameState_of_miss s hc]; simp

/-- C6. On a cache miss `evaluateGameState` returns `aiScore - 2 * humanScore`,
the two being the sums of `evaluatePosition` over the AI-owned and the
Human-owned cells, where `evaluatePosition` is the sum of `evaluateDirection`
over the directions (0,1), (1,0), (1,1), (1,-1), and `cells` lists each
on-board cell once; afterwards the table maps `currentHash` to the returned
value, and the other entries, the board and `currentHash` are unchanged. -/
theorem evaluateGameState_miss (s : State) (hmiss : s.transpositionTable s.currentHash = none) :
    (evaluateGameState s).1
        = sideScore s.board AI_PIECE - 2 * sideScore s.board HUMAN_PIECE ∧
      ((∀ c : Move, c ∈ cells ↔ inBoard c.1 c.2 = true) ∧ cells.Nodup) ∧
      (∀ (y x : Int) (p : Char), ∃ v1 v2 v3 v4 : Int,
        evaluateDirection s.board y x 0 1 p = some v1 ∧
        evaluateDirection s.board y x 1 0 p = some v2 ∧
        evaluateDirection s.board y x 1 1 p = some v3 ∧
        evaluateDirection s.board y x 1 (-1) p = some v4 ∧
        evaluatePosition s.board y x p = v1 + v2 + v3 + v4) ∧
      (evaluateGameState s).2.transpositionTable s.currentHash = some (evaluateGameState s).1 ∧
      (∀ h, h ≠ s.currentHash →
        (evaluateGameState s).2.transpositionTable h = s.transpositionTable h) ∧
      (evaluateGameState s).2.board = s.board ∧
      (evaluateGameState s).2.currentHash = s.currentHash := by
  rw [evaluateGameState_of_miss s hmiss]
  refine ⟨staticScore_eq s.board, ⟨mem_cells, cells_nodup⟩,
    fun y x p => evaluatePosition_eq s.board y x p, ?_, ?_, rfl, rfl⟩
  · simp
  · intro h hne
    simp [hne]

theorem evaluateGameState_miss_witness :
    (evaluateGameState emptyState).1
        = sideScore emptyState.board AI_PIECE - 2 * sideScore emptyState.board HUMAN_PIECE ∧
      ((∀ c : Move, c ∈ cells ↔ inBoard c.1 c.2 = true) ∧ cells.Nodup) ∧
      (∀ (y x : Int) (p : Char), ∃ v1 v2 v3 v4 : Int,
        evaluateDirection emptyState.board y x 0 1 p = some v1 ∧
        evaluateDirection emptyState.board y x 1 0 p = some v2 ∧
        evaluateDirection emptyState.board y x 1 1 p = some v3 ∧
        evaluateDirection emptyState.board y x 1 (-1) p = some v4 ∧
        evaluatePosition emptyState.board y x p = v1 + v2 + v3 + v4) ∧
      (evaluateGameState emptyState).2.transpositionTable emptyState.currentHash
        = some (evaluateGameState emptyState).1 ∧
      (∀ h, h ≠ emptyState.currentHash →
        (evaluateGameState emptyState).2.transpositionTable h = emptyState.transpositionTable h) ∧
      (evaluateGameState emptyState).2.board = emptyState.board ∧
      (evaluateGameState emptyState).2.currentHash = emptyState.currentHash :=
  evaluateGameState_miss emptyState rfl

/-- C7. A second call of `evaluateGameState` on the state left by a first call
returns the same value and leaves the same table: the hash is then cached, and
the call returns the cached value whatever the board holds. -/
theorem evaluateGameState_idempotent (s : State) :
    evaluateGameState (evaluateGameState s).2 = ((evaluateGameState s).1, (evaluateGameState s).2) ∧
      (evaluateGameState s).2.transpositionTable (evaluateGameState s).2.currentHash
        = some (evaluateGameState s).1 ∧
      (∀ board : Board,
        evaluateGameState { (evaluateGameState s).2 with board := board }
          = ((evaluateGameState s).1, { (evaluateGameState s).2 with board := board })) := by
  refine ⟨evaluateGameState_hit _ _ (evaluateGameState_cached s), evaluateGameState_cached s, ?_⟩
  intro board
  exact evaluateGameState_hit _ _ (evaluateGameState_cached s)

theorem negamax_zero (zobristTable : ZobristTable) (sortMoves : Sorter) (alpha beta : Int)
    (player : Char) (s : State) :
    negamax zobristTable sortMoves 0 alpha beta player s = evaluateGameState s := by
  rw [negamax]
  simp

/-- C8. At depth 0 `negamax` returns the value of `evaluateGameState` and
leaves the state `evaluateGameState` leaves; the result is the same for
every `alpha`, `beta` and `player`. -/
theorem negamax_depth_zero (zobristTable : ZobristTable) (sortMoves : Sorter) (alpha beta : Int)
    (player : Char) (s : State) :
    negamax zobristTable sortMoves 0 alpha beta player s = evaluateGameState s ∧
      ∀ (alpha1 beta1 : Int) (player1 : Char),
        negamax zobristTable sortMoves 0 alpha1 beta1 player1 s
          = negamax zobristTable sortMoves 0 alpha beta player s := by
  refine ⟨negamax_zero _ _ _ _ _ _, ?_⟩
  intro alpha1 beta1 player1
  rw [negamax_zero, negamax_zero]

theorem bestMoveLoop_single (zobristTable : ZobristTable) (sortMoves : Sorter) (m : Move)
    (bestValue : Int) (s : State) :
    (bestMoveLoop zobristTable sortMoves [m] bestValue m s).1 = m := by
  obtain ⟨y, x⟩ := m
  simp only [bestMoveLoop]
  split_ifs <;> rfl

/-- C10. On a board whose 225 cells are all empty, `findBestMove` returns
`(7, 7)`, whatever the hash, the keys, the sorter and the cached scores. -/
theorem findBestMove_empty_board (zobristTable : ZobristTable) (sortMoves : Sorter) (s : State)
    (hempty : ∀ y x, inBoard y x = true → s.board y x = EMPTY_CELL) :
    (findBestMove zobristTable sortMoves s).1 = (7, 7) := by
  have hm : getNearbyMoves s.board = [(7, 7)] := getNearbyMoves_all_empty s.board hempty
  unfold findBestMove
  rw [hm]
  exact bestMoveLoop_single zobristTable sortMoves (7, 7) INT_MIN s

theorem findBestMove_empty_board_witness :
    (findBestMove testKeys insertionSorter emptyState).1 = (7, 7) :=
  findBestMove_empty_board testKeys insertionSorter emptyState (fun _ _ _ => rfl)

/-! ## The search from findBestMove: every candidate is valued INT_MIN -/

theorem negamax_pos (zobristTable : ZobristTable) (sortMoves : Sorter)
    (depth : Nat) (alpha beta : Int) (player : Char) (s : State) (hd : depth ≠ 0) :
    negamax zobristTable sortMoves depth alpha beta player s
      = searchLoop zobristTable
          (if depth ≥ 3 then some (negamax zobristTable sortMoves (depth - 1 - 2)) else none)
          (negamax zobristTable sortMoves (depth - 1))
          beta player (sortMoves (moveOrder s.board) (getNearbyMoves s.board))
          alpha INT_MIN s := by
  rw [negamax]
  have hne : (getNearbyMoves s.board).isEmpty = false := by
    cases hg : getNearbyMoves s.board with
    | nil => exact absurd hg (getNearbyMoves_ne_nil s.board)
    | cons a l => rfl
  simp only [hd, dite_false, hne, Bool.false_eq_true, if_false]
  split_ifs <;> rfl

theorem evaluateGameState_tableOK (s : State) (h : TableOK s.transpositionTable) :
    TableOK (evaluateGameState s).2.transpositionTable ∧
      -1800000000 ≤ (evaluateGameState s).1 ∧ (evaluateGameState s).1 ≤ 900000000 := by
  cases hc : s.transpositionTable s.currentHash with
  | some v =>
    rw [evaluateGameState_hit s v hc]
    exact ⟨h, h _ _ hc⟩
  | none =>
    rw [evaluateGameState_of_miss s hc]
    refine ⟨?_, staticScore_range s.board⟩
    intro k v hk
    simp only at hk
    split_ifs at hk with hkk
    · simp only [Option.some.injEq] at hk
      rw [← hk]; exact staticScore_range s.board
    · exact h k v hk

theorem searchLoop_tableOK (zobristTable : ZobristTable) (probe : Option Callee)
    (child : Callee) (beta : Int) (player : Char)
    (hprobe : ∀ f, probe = some f → ∀ a b q t,
      TableOK t.transpositionTable → TableOK (f a b q t).2.transpositionTable)
    (hchild : ∀ a b q t,
      TableOK t.transpositionTable → TableOK (child a b q t).2.transpositionTable) :
    ∀ (l : List Move) (alpha bestValue : Int) (s : State), TableOK s.transpositionTable →
      TableOK (searchLoop zobristTable probe child beta player l alpha bestValue s).2.transpositionTable := by
  intro l
  induction l with
  | nil => intro alpha bestValue s hs; exact hs
  | cons m rest ih =>
    intro alpha bestValue s hs
    obtain ⟨y, x⟩ := m
    have hpr : TableOK
        (nullMoveProbe probe beta player (makeMove zobristTable s y x player)).2.transpositionTable := by
      cases hp : probe with
      | none => exact hs
      | some f => exact hprobe f hp _ _ _ _ hs
    have hch : ∀ a b q, TableOK (undoMove zobristTable (child a b q
        (nullMoveProbe probe beta player (makeMove zobristTable s y x player)).2).2
          y x player).transpositionTable := fun a b q => hchild a b q _ hpr
    simp only [searchLoop]
    split_ifs
    all_goals first
      | exact hpr
      | exact hch _ _ _
      | exact ih _ _ _ (hch _ _ _)

theorem negamax_tableOK (zobristTable : ZobristTable) (sortMoves : Sorter) :
    ∀ (depth : Nat) (alpha beta : Int) (player : Char) (s : State),
      TableOK s.transpositionTable →
      TableOK (negamax zobristTable sortMoves depth alpha beta player s).2.transpositionTable := by
  intro depth
  induction depth using Nat.strong_induction_on with
  | _ d ih =>
    intro alpha beta player s hs
    by_cases hd : d = 0
    · subst hd
      rw [negamax_zero]
      exact (evaluateGameState_tableOK s hs).1
    · rw [negamax_pos _ _ _ _ _ _ _ hd]
      apply searchLoop_tableOK
      · intro f hf
        split_ifs at hf with h3
        simp only [Option.some.injEq] at hf
        subst hf
        exact ih (d - 1 - 2) (by omega)
      · exact ih (d - 1) (by omega)
      · exact hs

theorem negInt32_of_range (v : Int) (h1 : -2147483647 ≤ v) (h2 : v ≤ 2147483647) :
    negInt32 v = -v := by
  unfold negInt32 wrapInt32; omega

theorem negInt32_ge_min (v : Int) : negInt32 v ≥ INT_MIN := by
  unfold negInt32 wrapInt32 INT_MIN; omega

theorem negInt32_min : negInt32 INT_MIN = INT_MIN := by decide

theorem searchLoop_cons (zobristTable : ZobristTable) (probe : Option Callee) (child : Callee)
    (beta : Int) (player : Char) (y x : Int) (rest : List Move) (alpha bestValue : Int)
    (s : State) :
    searchLoop zobristTable probe child beta player ((y, x) :: rest) alpha bestValue s
      = if (nullMoveProbe probe beta player (makeMove zobristTable s y x player)).1 = true then
          (beta, undoMove zobristTable
            (nullMoveProbe probe beta player (makeMove zobristTable s y x player)).2 y x player)
        else
          if negInt32 (child (negInt32 beta) (negInt32 alpha) (otherPlayer player)
              (nullMoveProbe probe beta player (makeMove zobristTable s y x player)).2).1
              > bestValue then
            if (if negInt32 (child (negInt32 beta) (negInt32 alpha) (otherPlayer player)
                  (nullMoveProbe probe beta player (makeMove zobristTable s y x player)).2).1
                  > alpha
                then negInt32 (child (negInt32 beta) (negInt32 alpha) (otherPlayer player)
                  (nullMoveProbe probe beta player (makeMove zobristTable s y x player)).2).1
                else alpha) ≥ beta then
              (negInt32 (child (negInt32 beta) (negInt32 alpha) (otherPlayer player)
                  (nullMoveProbe probe beta player (makeMove zobristTable s y x player)).2).1,
                undoMove zobristTable (child (negInt32 beta) (negInt32 alpha) (otherPlayer player)
                  (nullMoveProbe probe beta player (makeMove zobristTable s y x player)).2).2
                  y x player)
            else
              searchLoop zobristTable probe child beta player rest
                (if negInt32 (child (negInt32 beta) (negInt32 alpha) (otherPlayer player)
                  (nullMoveProbe probe beta player (makeMove zobristTable s y x player)).2).1
                  > alpha
                then negInt32 (child (negInt32 beta) (negInt32 alpha) (otherPlayer player)
                  (nullMoveProbe probe beta player (makeMove zobristTable s y x player)).2).1
                else alpha)
                (negInt32 (child (negInt32 beta) (negInt32 alpha) (otherPlayer player)
                  (nullMoveProbe probe beta player (makeMove zobristTable s y x player)).2).1)
                (undoMove zobristTable (child (negInt32 beta) (negInt32 alpha) (otherPlayer player)
                  (nullMoveProbe probe beta player (makeMove zobristTable s y x player)).2).2
                  y x player)
          else
            searchLoop zobristTable probe child beta player rest alpha bestValue
              (undoMove zobristTable (child (negInt32 beta) (negInt32 alpha) (otherPlayer player)
                (nullMoveProbe probe beta player (makeMove zobristTable s y x player)).2).2
                y x player) := rfl

/-- The loop of a node whose children are leaves: the result is the incoming
`bestValue` or the negation of a static score. -/
theorem leafLoop_range (zobristTable : ZobristTable) (child : Callee) (beta : Int)
    (player : Char)
    (hchild : ∀ a b q t, TableOK t.transpositionTable →
      TableOK (child a b q t).2.transpositionTable ∧
        -1800000000 ≤ (child a b q t).1 ∧ (child a b q t).1 ≤ 900000000) :
    ∀ (l : List Move) (alpha bestValue : Int) (s : State), TableOK s.transpositionTable →
      (searchLoop zobristTable none child beta player l alpha bestValue s).1 = bestValue ∨
      (-900000000 ≤ (searchLoop zobristTable none child beta player l alpha bestValue s).1 ∧
        (searchLoop zobristTable none child beta player l alpha bestValue s).1 ≤ 1800000000) := by
  intro l
  induction l with
  | nil => intro alpha bestValue s _; left; rfl
  | cons m rest ih =>
    intro alpha bestValue s hs
    obtain ⟨y, x⟩ := m
    rw [searchLoop_cons]
    have hp : nullMoveProbe none beta player (makeMove zobristTable s y x player)
        = (false, makeMove zobristTable s y x player) := rfl
    rw [hp]
    obtain ⟨hc1, hc2, hc3⟩ := hchild (negInt32 beta) (negInt32 alpha) (otherPlayer player)
      (makeMove zobristTable s y x player) hs
    simp only [Bool.false_eq_true, if_false]
    generalize hval : negInt32 (child (negInt32 beta) (negInt32 alpha) (otherPlayer player)
        (makeMove zobristTable s y x player)).1 = value at *
    have hvr : -900000000 ≤ value ∧ value ≤ 1800000000 := by
      rw [negInt32_of_range _ (by omega) (by omega)] at hval
      omega
    have hs3 : TableOK (undoMove zobristTable (child (negInt32 beta) (negInt32 alpha)
        (otherPlayer player) (makeMove zobristTable s y x player)).2 y x player).transpositionTable :=
      hc1
    generalize (if value > alpha then value else alpha) = alpha1
    split_ifs
    · right; exact hvr
    · rcases ih _ value _ hs3 with h | h
      · right; rw [h]; exact hvr
      · right; exact h
    · exact ih _ bestValue _ hs3

theorem leafLoop_nonempty (zobristTable : ZobristTable) (child : Callee) (beta : Int)
    (player : Char)
    (hchild : ∀ a b q t, TableOK t.transpositionTable →
      TableOK (child a b q t).2.transpositionTable ∧
        -1800000000 ≤ (child a b q t).1 ∧ (child a b q t).1 ≤ 900000000)
    (l : List Move) (hl : l ≠ []) (alpha : Int) (s : State)
    (hs : TableOK s.transpositionTable) :
    -900000000 ≤ (searchLoop zobristTable none child beta player l alpha INT_MIN s).1 ∧
      (searchLoop zobristTable none child beta player l alpha INT_MIN s).1 ≤ 1800000000 := by
  cases l with
  | nil => exact absurd rfl hl
  | cons m rest =>
    obtain ⟨y, x⟩ := m
    rw [searchLoop_cons]
    have hp : nullMoveProbe none beta player (makeMove zobristTable s y x player)
        = (false, makeMove zobristTable s y x player) := rfl
    rw [hp]
    obtain ⟨hc1, hc2, hc3⟩ := hchild (negInt32 beta) (negInt32 alpha) (otherPlayer player)
      (makeMove zobristTable s y x player) hs
    simp only [Bool.false_eq_true, if_false]
    generalize hval : negInt32 (child (negInt32 beta) (negInt32 alpha) (otherPlayer player)
        (makeMove zobristTable s y x player)).1 = value at *
    have hvr : -900000000 ≤ value ∧ value ≤ 1800000000 := by
      rw [negInt32_of_range _ (by omega) (by omega)] at hval
      omega
    have hs3 : TableOK (undoMove zobristTable (child (negInt32 beta) (negInt32 alpha)
        (otherPlayer player) (makeMove zobristTable s y x player)).2 y x player).transpositionTable :=
      hc1
    generalize (if value > alpha then value else alpha) = alpha1
    have hgt : value > INT_MIN := by unfold INT_MIN; omega
    rw [if_pos hgt]
    split_ifs
    · exact hvr
    · rcases leafLoop_range zobristTable child beta player hchild rest alpha1 value _ hs3
        with h | h
      · rw [h]; exact hvr
      · exact h

theorem negamax_one_range (zobristTable : ZobristTable) (sortMoves : Sorter)
    (hsort : KeepsNonempty sortMoves) (alpha beta : Int) (player : Char) (s : State)
    (hs : TableOK s.transpositionTable) :
    -900000000 ≤ (negamax zobristTable sortMoves 1 alpha beta player s).1 ∧
      (negamax zobristTable sortMoves 1 alpha beta player s).1 ≤ 1800000000 := by
  rw [negamax_pos _ _ _ _ _ _ _ (by decide)]
  have h3 : ¬ (1 ≥ 3) := by decide
  rw [if_neg h3]
  apply leafLoop_nonempty
  · intro a b q t ht
    have e : negamax zobristTable sortMoves (1 - 1) a b q t = evaluateGameState t :=
      negamax_zero _ _ _ _ _ _
    rw [e]
    exact evaluateGameState_tableOK t ht
  · exact hsort _ _ (getNearbyMoves_ne_nil s.board)
  · exact hs

/-- With `beta = INT_MIN + 2` at depth 4, the null-move probe on the first
candidate cuts off: the node returns `beta`. -/
theorem negamax_four_cut (zobristTable : ZobristTable) (sortMoves : Sorter)
    (hsort : KeepsNonempty sortMoves) (alpha : Int) (player : Char) (s : State)
    (hs : TableOK s.transpositionTable) :
    (negamax zobristTable sortMoves 4 alpha (-2147483646) player s).1 = -2147483646 := by
  rw [negamax_pos _ _ _ _ _ _ _ (by decide)]
  have h3 : (4 ≥ 3) := by decide
  rw [if_pos h3]
  cases hl : sortMoves (moveOrder s.board) (getNearbyMoves s.board) with
  | nil => exact absurd hl (hsort _ _ (getNearbyMoves_ne_nil s.board))
  | cons m rest =>
    obtain ⟨y, x⟩ := m
    rw [searchLoop_cons]
    have hr := negamax_one_range zobristTable sortMoves hsort (negInt32 (-2147483646))
      (addInt32 (negInt32 (-2147483646)) 1) (otherPlayer player)
      (makeMove zobristTable s y x player) hs
    have hcut : (nullMoveProbe (some (negamax zobristTable sortMoves (4 - 1 - 2))) (-2147483646)
        player (makeMove zobristTable s y x player)).1 = true := by
      simp only [nullMoveProbe, decide_eq_true_eq]
      show negInt32 (negamax zobristTable sortMoves 1 _ _ _ _).1 ≥ _
      rw [negInt32_of_range _ (by omega) (by omega)]
      omega
    rw [if_pos hcut]

/-- With `beta = INT_MIN` at depth 3 or more, the null-move test
`nullScore >= beta` holds on the first candidate: the node returns `INT_MIN`. -/
theorem negamax_beta_min (zobristTable : ZobristTable) (sortMoves : Sorter)
    (hsort : KeepsNonempty sortMoves) (depth : Nat) (hd : depth ≥ 3) (alpha : Int)
    (player : Char) (s : State) :
    (negamax zobristTable sortMoves depth alpha INT_MIN player s).1 = INT_MIN := by
  rw [negamax_pos _ _ _ _ _ _ _ (by omega)]
  rw [if_pos hd]
  cases hl : sortMoves (moveOrder s.board) (getNearbyMoves s.board) with
  | nil => exact absurd hl (hsort _ _ (getNearbyMoves_ne_nil s.board))
  | cons m rest =>
    obtain ⟨y, x⟩ := m
    rw [searchLoop_cons]
    have hcut : (nullMoveProbe (some (negamax zobristTable sortMoves (depth - 1 - 2))) INT_MIN
        player (makeMove zobristTable s y x player)).1 = true := by
      simp only [nullMoveProbe, decide_eq_true_eq]
      exact negInt32_ge_min _
    rw [if_pos hcut]

/-- The candidate loop of the depth-7 node opened by `findBestMove`: no null-move
probe cuts off, every child returns `INT_MIN`, whose negation is `INT_MIN`
again, so `bestValue` never leaves `INT_MIN`. -/
theorem rootChildLoop_min (zobristTable : ZobristTable) (sortMoves : Sorter)
    (hsort : KeepsNonempty sortMoves) (player : Char) :
    ∀ (l : List Move) (s : State), TableOK s.transpositionTable →
      (searchLoop zobristTable (some (negamax zobristTable sortMoves 4))
          (negamax zobristTable sortMoves 6) INT_MAX player l INT_MIN INT_MIN s).1 = INT_MIN ∧
      TableOK (searchLoop zobristTable (some (negamax zobristTable sortMoves 4))
          (negamax zobristTable sortMoves 6) INT_MAX player l INT_MIN INT_MIN s).2.transpositionTable := by
  intro l
  induction l with
  | nil => intro s hs; exact ⟨rfl, hs⟩
  | cons m rest ih =>
    intro s hs
    obtain ⟨y, x⟩ := m
    rw [searchLoop_cons]
    have e1 : negInt32 INT_MAX = -2147483647 := by decide
    have e2 : addInt32 (-2147483647) 1 = -2147483646 := by decide
    have hprobe : nullMoveProbe (some (negamax zobristTable sortMoves 4)) INT_MAX player
        (makeMove zobristTable s y x player)
        = (false, (negamax zobristTable sortMoves 4 (-2147483647) (-2147483646)
            (otherPlayer player) (makeMove zobristTable s y x player)).2) := by
      simp only [nullMoveProbe, e1, e2]
      rw [negamax_four_cut zobristTable sortMoves hsort (-2147483647) (otherPlayer player)
        (makeMove zobristTable s y x player) hs]
      rfl
    rw [hprobe]
    simp only [Bool.false_eq_true, if_false, negInt32_min,
      negamax_beta_min zobristTable sortMoves hsort 6 (by decide)]
    have hs2 : TableOK (negamax zobristTable sortMoves 4 (-2147483647) (-2147483646)
        (otherPlayer player) (makeMove zobristTable s y x player)).2.transpositionTable :=
      negamax_tableOK zobristTable sortMoves 4 _ _ _ _ hs
    have hs3 : TableOK (undoMove zobristTable (negamax zobristTable sortMoves 6 (negInt32 INT_MAX)
        INT_MIN (otherPlayer player) (negamax zobristTable sortMoves 4 (-2147483647) (-2147483646)
          (otherPlayer player) (makeMove zobristTable s y x player)).2).2 y x
          player).transpositionTable :=
      negamax_tableOK zobristTable sortMoves 6 _ _ _ _ hs2
    have hlt : ¬ (INT_MIN > INT_MIN) := by decide
    rw [if_neg hlt]
    exact ih _ hs3

theorem negamax_root_child (zobristTable : ZobristTable) (sortMoves : Sorter)
    (hsort : KeepsNonempty sortMoves) (player : Char) (s : State)
    (hs : TableOK s.transpositionTable) :
    (negamax zobristTable sortMoves 7 INT_MIN INT_MAX player s).1 = INT_MIN ∧
      TableOK (negamax zobristTable sortMoves 7 INT_MIN INT_MAX player s).2.transpositionTable := by
  rw [negamax_pos _ _ _ _ _ _ _ (by decide)]
  have h3 : (7 ≥ 3) := by decide
  rw [if_pos h3]
  exact rootChildLoop_min zobristTable sortMoves hsort player _ s hs

theorem bestMoveLoop_default (zobristTable : ZobristTable) (sortMoves : Sorter)
    (hsort : KeepsNonempty sortMoves) :
    ∀ (l : List Move) (bestMove : Move) (s : State), TableOK s.transpositionTable →
      (bestMoveLoop zobristTable sortMoves l INT_MIN bestMove s).1 = bestMove := by
  intro l
  induction l with
  | nil => intro bestMove s _; rfl
  | cons m rest ih =>
    intro bestMove s hs
    obtain ⟨y, x⟩ := m
    obtain ⟨hv, ht⟩ := negamax_root_child zobristTable sortMoves hsort HUMAN_PIECE
      (makeMove zobristTable s y x AI_PIECE) hs
    simp only [bestMoveLoop, hv, negInt32_min]
    have hlt : ¬ (INT_MIN > INT_MIN) := by decide
    have hw : ¬ (INT_MIN = WIN_SCORE) := by decide
    rw [if_neg hlt, if_neg hw]
    exact ih bestMove _ ht

/-- From a state whose cached scores are static scores, `findBestMove` returns
its default move `(7, 7)`: no candidate ever gets a value above `INT_MIN`. -/
theorem findBestMove_default (zobristTable : ZobristTable) (sortMoves : Sorter)
    (hsort : KeepsNonempty sortMoves) (s : State) (hs : TableOK s.transpositionTable) :
    (findBestMove zobristTable sortMoves s).1 = (7, 7) := by
  unfold findBestMove
  exact bestMoveLoop_default zobristTable sortMoves hsort _ _ s hs

theorem insertionSorter_keepsNonempty : KeepsNonempty insertionSorter := by
  intro lt l hl hnil
  have hp : (insertionSorter lt l).Perm l := List.perm_insertionSort _ l
  rw [hnil] at hp
  exact hl (List.Perm.nil_eq hp).symm

theorem tableOK_empty : TableOK (fun _ => none) := by
  intro h v hv
  exact absurd hv (by simp)

set_option maxRecDepth 100000 in
theorem getNearbyMoves_cornerBoard : getNearbyMoves cornerBoard = [(0, 1), (1, 0), (1, 1)] := by
  decide

/-- C9 fails on the code. On the board whose only stone is a Human stone at
`(0, 0)`, with nothing cached, the candidates are `(0, 1)`, `(1, 0)`, `(1, 1)`,
yet `findBestMove` returns `(7, 7)`, which is none of them: every candidate
gets the value `INT_MIN`, so the test `moveValue > bestValue` never holds. -/
theorem findBestMove_returns_non_candidate :
    getNearbyMoves cornerState.board = [(0, 1), (1, 0), (1, 1)] ∧
      (findBestMove testKeys insertionSorter cornerState).1 = (7, 7) ∧
      (findBestMove testKeys insertionSorter cornerState).1 ∉ getNearbyMoves cornerState.board ∧
      (∀ m ∈ getNearbyMoves cornerState.board,
        negInt32 (negamax testKeys insertionSorter 7 INT_MIN INT_MAX HUMAN_PIECE
          (makeMove testKeys cornerState m.1 m.2 AI_PIECE)).1 = INT_MIN) := by
  have h1 : getNearbyMoves cornerState.board = [(0, 1), (1, 0), (1, 1)] :=
    getNearbyMoves_cornerBoard
  have h2 : (findBestMove testKeys insertionSorter cornerState).1 = (7, 7) :=
    findBestMove_default testKeys insertionSorter insertionSorter_keepsNonempty cornerState
      tableOK_empty
  refine ⟨h1, h2, ?_, ?_⟩
  · rw [h2, h1]; decide
  · intro m _
    rw [(negamax_root_child testKeys insertionSorter insertionSorter_keepsNonempty HUMAN_PIECE
      (makeMove testKeys cornerState m.1 m.2 AI_PIECE) tableOK_empty).1]
    exact negInt32_min

/-! ## No overflow in the static score; the move findBestMove returns -/

theorem keepsNonempty_of_sortPermutes (sortMoves : Sorter) (h : SortPermutes sortMoves) :
    KeepsNonempty sortMoves := by
  intro lt l hl hnil
  have hp := h lt l
  rw [hnil] at hp
  exact hl (List.Perm.nil_eq hp).symm

theorem insertionSorter_sortPermutes : SortPermutes insertionSorter :=
  fun _ l => List.perm_insertionSort _ l

theorem ownedSum_le_count (board : Board) (p : Char) (l : List Move) :
    ownedSum board p l
      ≤ 4000000 * ((l.filter (fun c => decide (board c.1 c.2 = p))).length : Int) := by
  induction l with
  | nil => simp [ownedSum_nil]
  | cons c l ih =>
    rw [ownedSum_cons]
    have := evaluatePosition_range board c.1 c.2 p
    by_cases h : board c.1 c.2 = p
    · simp only [h, if_true, List.filter_cons, decide_True, List.length_cons, Nat.cast_add,
        Nat.cast_one]
      omega
    · simp only [h, if_false, List.filter_cons, decide_False, zero_add]
      exact ih

theorem stoneCount_add_le (board : Board) :
    stoneCount board AI_PIECE + stoneCount board HUMAN_PIECE ≤ 225 := by
  have hgen : ∀ l : List Move,
      (l.filter (fun c => decide (board c.1 c.2 = AI_PIECE))).length
        + (l.filter (fun c => decide (board c.1 c.2 = HUMAN_PIECE))).length ≤ l.length := by
    intro l
    induction l with
    | nil => simp
    | cons c l ih =>
      have hne : ¬ AI_PIECE = HUMAN_PIECE := by decide
      by_cases ha : board c.1 c.2 = AI_PIECE
      · have hh : ¬ board c.1 c.2 = HUMAN_PIECE := fun h => hne (ha.symm.trans h)
        rw [List.filter_cons_of_pos (by simpa using ha),
          List.filter_cons_of_neg (by simpa using hh)]
        simp only [List.length_cons]
        omega
      · by_cases hh : board c.1 c.2 = HUMAN_PIECE
        · rw [List.filter_cons_of_neg (by simpa using ha),
            List.filter_cons_of_pos (by simpa using hh)]
          simp only [List.length_cons]
          omega
        · rw [List.filter_cons_of_neg (by simpa using ha),
            List.filter_cons_of_neg (by simpa using hh)]
          simp only [List.length_cons]
          omega
  have := hgen cells
  rw [cells_length] at this
  exact this

/-- C20. The static score never overflows `int`: `evaluateDirection` returns
one of 0, 100, 1000, 10000, 100000, 1000000; `evaluatePosition` lies in
`[0, 4000000]`; `aiScore` and `humanScore` are at most 4000000 times the number
of AI and of Human stones, of which there are at most 225 together; the value
computed on a miss lies in `[-1800000000, 900000000]`; and after any number of
cells scanned the wrapped partial sums are the exact sums, which lie in
`[0, 900000000]`. -/
theorem staticScore_no_overflow (board : Board) :
    (∀ (y x dy dx : Int) (p : Char) (v : Int), evaluateDirection board y x dy dx p = some v →
        v = 0 ∨ v = 100 ∨ v = 1000 ∨ v = 10000 ∨ v = 100000 ∨ v = 1000000) ∧
      (∀ (y x : Int) (p : Char),
        0 ≤ evaluatePosition board y x p ∧ evaluatePosition board y x p ≤ 4000000) ∧
      sideScore board AI_PIECE ≤ 4000000 * (stoneCount board AI_PIECE : Int) ∧
      sideScore board HUMAN_PIECE ≤ 4000000 * (stoneCount board HUMAN_PIECE : Int) ∧
      stoneCount board AI_PIECE + stoneCount board HUMAN_PIECE ≤ 225 ∧
      (∀ l : List Move, l <+: cells →
        l.foldl (fun acc c => scoreCell board c.1 acc c.2) (0, 0)
            = (ownedSum board AI_PIECE l, ownedSum board HUMAN_PIECE l) ∧
          0 ≤ ownedSum board AI_PIECE l ∧ ownedSum board AI_PIECE l ≤ 900000000 ∧
          0 ≤ ownedSum board HUMAN_PIECE l ∧ ownedSum board HUMAN_PIECE l ≤ 900000000) ∧
      scanScores board = (sideScore board AI_PIECE, sideScore board HUMAN_PIECE) ∧
      staticScore board = sideScore board AI_PIECE - 2 * sideScore board HUMAN_PIECE ∧
      -1800000000 ≤ staticScore board ∧ staticScore board ≤ 900000000 := by
  refine ⟨?_, evaluatePosition_range board, ownedSum_le_count board AI_PIECE cells,
    ownedSum_le_count board HUMAN_PIECE cells, stoneCount_add_le board, ?_,
    scanScores_eq board, staticScore_eq board, staticScore_range board⟩
  · intro y x dy dx p v h
    unfold evaluateDirection at h
    split at h
    · exact absurd h (by simp)
    · split at h
      · exact absurd h (by simp)
      · rename_i c o _
        simp only [Option.some.injEq] at h
        rw [← h]
        exact patternScore_mem (c + 1) o
  · intro l hl
    have hlen : (l.length : Int) ≤ 225 := by
      have := hl.length_le
      rw [cells_length] at this
      exact_mod_cast this
    have ha := ownedSum_range board AI_PIECE l
    have hh := ownedSum_range board HUMAN_PIECE l
    refine ⟨?_, ha.1, by omega, hh.1, by omega⟩
    rw [scoreFold_eq board l (0, 0) (by simp) (by simp only; omega) (by simp)
      (by simp only; omega)]
    simp

theorem staticScore_no_overflow_witness :
    ((100000 : Int) = 0 ∨ (100000 : Int) = 100 ∨ (100000 : Int) = 1000 ∨
        (100000 : Int) = 10000 ∨ (100000 : Int) = 100000 ∨ (100000 : Int) = 1000000) ∧
      (([] : List Move).foldl (fun acc c => scoreCell fourInRow c.1 acc c.2) (0, 0)
            = (ownedSum fourInRow AI_PIECE [], ownedSum fourInRow HUMAN_PIECE []) ∧
          0 ≤ ownedSum fourInRow AI_PIECE [] ∧ ownedSum fourInRow AI_PIECE [] ≤ 900000000 ∧
          0 ≤ ownedSum fourInRow HUMAN_PIECE [] ∧
          ownedSum fourInRow HUMAN_PIECE [] ≤ 900000000) ∧
      -1800000000 ≤ staticScore fourInRow ∧ staticScore fourInRow ≤ 900000000 :=
  have h := staticScore_no_overflow fourInRow
  ⟨h.1 7 4 0 1 AI_PIECE 100000 (by decide), h.2.2.2.2.2.1 [] List.nil_prefix,
    h.2.2.2.2.2.2.2.2⟩

/-- C19. With 32-bit wraparound, starting from an empty transposition table,
`findBestMove` returns `(7, 7)` on every board, for every key table and every
sorter that permutes: a depth-6 child called with `beta = INT_MIN` returns
`INT_MIN`, every root candidate gets the value `-INT_MIN = INT_MIN`, and the
default move is kept. -/
theorem findBestMove_always_centre (zobristTable : ZobristTable) (sortMoves : Sorter)
    (hsort : SortPermutes sortMoves) (board : Board) (currentHash : Nat) :
    negInt32 INT_MIN = INT_MIN ∧
      (∀ (alpha : Int) (player : Char) (s : State),
        (negamax zobristTable sortMoves 6 alpha INT_MIN player s).1 = INT_MIN) ∧
      (∀ m : Move,
        negInt32 (negamax zobristTable sortMoves 7 INT_MIN INT_MAX HUMAN_PIECE
          (makeMove zobristTable ⟨board, currentHash, fun _ => none⟩ m.1 m.2 AI_PIECE)).1
          = INT_MIN) ∧
      (findBestMove zobristTable sortMoves ⟨board, currentHash, fun _ => none⟩).1 = (7, 7) := by
  have hk := keepsNonempty_of_sortPermutes sortMoves hsort
  refine ⟨negInt32_min, ?_, ?_, ?_⟩
  · intro alpha player s
    exact negamax_beta_min zobristTable sortMoves hk 6 (by decide) alpha player s
  · intro m
    rw [(negamax_root_child zobristTable sortMoves hk HUMAN_PIECE
      (makeMove zobristTable ⟨board, currentHash, fun _ => none⟩ m.1 m.2 AI_PIECE)
      tableOK_empty).1]
    exact negInt32_min
  · exact findBestMove_default zobristTable sortMoves hk _ tableOK_empty

theorem findBestMove_always_centre_witness :
    negInt32 INT_MIN = INT_MIN ∧
      (∀ (alpha : Int) (player : Char) (s : State),
        (negamax testKeys insertionSorter 6 alpha INT_MIN player s).1 = INT_MIN) ∧
      (∀ m : Move,
        negInt32 (negamax testKeys insertionSorter 7 INT_MIN INT_MAX HUMAN_PIECE
          (makeMove testKeys ⟨fullBoard, 0, fun _ => none⟩ m.1 m.2 AI_PIECE)).1
          = INT_MIN) ∧
      (findBestMove testKeys insertionSorter ⟨fullBoard, 0, fun _ => none⟩).1 = (7, 7) :=
  findBestMove_always_centre testKeys insertionSorter insertionSorter_sortPermutes fullBoard 0

/-! ## Runs: closed fours, cells of one run, five in a row -/

theorem isSideRun_unique (board : Board) (y x dy dx : Int) (p : Char) (a b : Nat)
    (ha : IsSideRun board y x dy dx p a) (hb : IsSideRun board y x dy dx p b) : a = b := by
  rcases Nat.lt_trichotomy a b with h | h | h
  · exact absurd (hb.1 (a + 1) (by omega) (by exact_mod_cast h)) ha.2
  · exact h
  · exact absurd (ha.1 (b + 1) (by omega) (by exact_mod_cast h)) hb.2

theorem isSideRun_ge (board : Board) (y x dy dx : Int) (p : Char) (a n : Nat)
    (ha : IsSideRun board y x dy dx p a)
    (hn : ∀ j : Int, 1 ≤ j → j ≤ n →
      inBoard (y + j * dy) (x + j * dx) = true ∧ board (y + j * dy) (x + j * dx) = p) :
    n ≤ a := by
  by_contra hlt
  exact ha.2 (hn (a + 1) (by omega) (by exact_mod_cast Nat.lt_of_not_le hlt))

/-- The value of `evaluateDirection` from the two side runs, once these are known. -/
theorem evaluateDirection_of_runs (board : Board) (y x dy dx : Int) (p : Char) (a b : Nat)
    (hd : dy ≠ 0 ∨ dx ≠ 0)
    (ha : IsSideRun board y x dy dx p a) (hb : IsSideRun board y x (-dy) (-dx) p b) :
    evaluateDirection board y x dy dx p
      = some (patternScore (1 + a + b)
          (openSide board y x dy dx a + openSide board y x (-dy) (-dx) b)) := by
  obtain ⟨a', b', ha', hb', he⟩ := evaluateDirection_eq board y x dy dx p hd
  rw [isSideRun_unique _ _ _ _ _ _ _ _ ha ha', isSideRun_unique _ _ _ _ _ _ _ _ hb hb']
  exact he

theorem blockedFour_run_fwd : IsSideRun blockedFour 7 1 0 1 AI_PIECE 2 := by
  refine ⟨?_, by decide⟩
  intro j h1 h2
  have hj : j = 1 ∨ j = 2 := by push_cast at h2; omega
  rcases hj with rfl | rfl <;> decide

theorem blockedFour_run_bwd : IsSideRun blockedFour 7 1 (-0) (-1) AI_PIECE 1 := by
  refine ⟨?_, by decide⟩
  intro j h1 h2
  have hj : j = 1 := by push_cast at h2; omega
  subst hj; decide

/-- C12, as stated, fails: a run of four closed at both ends (board edge on one
side, Human stone on the other) scores 10000, not 0. -/
theorem evaluateDirection_closed_four_nonzero :
    IsSideRun blockedFour 7 1 0 1 AI_PIECE 2 ∧ IsSideRun blockedFour 7 1 (-0) (-1) AI_PIECE 1 ∧
      openSide blockedFour 7 1 0 1 2 = 0 ∧ openSide blockedFour 7 1 (-0) (-1) 1 = 0 ∧
      evaluateDirection blockedFour 7 1 0 1 AI_PIECE = some 10000 ∧
      evaluateDirection blockedFour 7 1 0 1 AI_PIECE ≠ some 0 :=
  ⟨blockedFour_run_fwd, blockedFour_run_bwd, by decide, by decide, by decide, by decide⟩

/-- C12, amended. When the run through a cell along an axis direction has
length exactly 4 and neither flanking cell is an empty on-board cell,
`evaluateDirection` returns `BROKEN_FOUR_SCORE` (10000). -/
theorem evaluateDirection_closed_four (board : Board) (y x dy dx : Int) (p : Char) (a b : Nat)
    (hdir : (dy, dx) ∈ directions)
    (ha : IsSideRun board y x dy dx p a) (hb : IsSideRun board y x (-dy) (-dx) p b)
    (hrun : 1 + a + b = 4)
    (hopen1 : openSide board y x dy dx a = 0) (hopen2 : openSide board y x (-dy) (-dx) b = 0) :
    evaluateDirection board y x dy dx p = some 10000 := by
  rw [evaluateDirection_of_runs board y x dy dx p a b (directions_ne_zero dy dx hdir) ha hb,
    hopen1, hopen2]
  have h4 : (1 + (a : Int) + (b : Int)) = 4 := by exact_mod_cast hrun
  rw [h4]
  rfl

theorem evaluateDirection_closed_four_witness :
    evaluateDirection blockedFour 7 1 0 1 AI_PIECE = some 10000 :=
  evaluateDirection_closed_four blockedFour 7 1 0 1 AI_PIECE 2 1 (by decide)
    blockedFour_run_fwd blockedFour_run_bwd (by decide) (by decide) (by decide)

/-- A side run seen from the cell one step back is one longer. -/
theorem isSideRun_shift (board : Board) (y x dy dx : Int) (p : Char) (n : Nat)
    (hin : inBoard (y + dy) (x + dx) = true) (hp : board (y + dy) (x + dx) = p)
    (hrun : IsSideRun board (y + dy) (x + dx) dy dx p n) :
    IsSideRun board y x dy dx p (n + 1) := by
  have e : ∀ (z dz j : Int), z + j * dz = z + dz + (j - 1) * dz := by intro z dz j; ring
  constructor
  · intro j h1 h2
    by_cases hj : j = 1
    · subst hj
      simp only [one_mul]
      exact ⟨hin, hp⟩
    · rw [e y dy j, e x dx j]
      exact hrun.1 (j - 1) (by omega) (by push_cast at h2; omega)
  · have e1 : y + (((n + 1 : Nat) : Int) + 1) * dy = y + dy + ((n : Int) + 1) * dy := by
      push_cast; ring
    have e2 : x + (((n + 1 : Nat) : Int) + 1) * dx = x + dx + ((n : Int) + 1) * dx := by
      push_cast; ring
    rw [e1, e2]
    exact hrun.2

theorem openSide_shift (board : Board) (y x dy dx : Int) (n : Nat) :
    openSide board y x dy dx (n + 1) = openSide board (y + dy) (x + dx) dy dx n := by
  have e1 : y + (((n + 1 : Nat) : Int) + 1) * dy = y + dy + ((n : Int) + 1) * dy := by
    push_cast; ring
  have e2 : x + (((n + 1 : Nat) : Int) + 1) * dx = x + dx + ((n : Int) + 1) * dx := by
    push_cast; ring
  unfold openSide
  rw [e1, e2]

/-- Two neighbouring cells of a run get the same value along the run. -/
theorem evaluateDirection_step (board : Board) (y x dy dx : Int) (p : Char)
    (hd : dy ≠ 0 ∨ dx ≠ 0)
    (hin0 : inBoard y x = true) (hp0 : board y x = p)
    (hin1 : inBoard (y + dy) (x + dx) = true) (hp1 : board (y + dy) (x + dx) = p) :
    evaluateDirection board (y + dy) (x + dx) dy dx p = evaluateDirection board y x dy dx p := by
  obtain ⟨a, -, ha, -, -⟩ := evaluateDirection_eq board (y + dy) (x + dx) dy dx p hd
  obtain ⟨-, b, -, hb, -⟩ := evaluateDirection_eq board y x dy dx p hd
  have ha0 : IsSideRun board y x dy dx p (a + 1) :=
    isSideRun_shift board y x dy dx p a hin1 hp1 ha
  have ey : y + dy + -dy = y := by ring
  have ex : x + dx + -dx = x := by ring
  have hb1 : IsSideRun board (y + dy) (x + dx) (-dy) (-dx) p (b + 1) := by
    apply isSideRun_shift
    · rw [ey, ex]; exact hin0
    · rw [ey, ex]; exact hp0
    · rw [ey, ex]; exact hb
  rw [evaluateDirection_of_runs board _ _ dy dx p a (b + 1) hd ha hb1,
    evaluateDirection_of_runs board y x dy dx p (a + 1) b hd ha0 hb,
    openSide_shift board y x dy dx a, openSide_shift board (y + dy) (x + dx) (-dy) (-dx) b,
    ey, ex]
  congr 2
  push_cast; ring

theorem evaluateDirection_along_run (board : Board) (y x dy dx : Int) (p : Char)
    (hd : dy ≠ 0 ∨ dx ≠ 0) :
    ∀ k : Nat,
      (∀ j : Int, 0 ≤ j → j ≤ k →
        inBoard (y + j * dy) (x + j * dx) = true ∧ board (y + j * dy) (x + j * dx) = p) →
      evaluateDirection board (y + k * dy) (x + k * dx) dy dx p
        = evaluateDirection board y x dy dx p := by
  intro k
  induction k with
  | zero => intro _; simp
  | succ k ih =>
    intro h
    have hk := h k (by omega) (by push_cast; omega)
    have hk1 := h (k + 1) (by omega) (by push_cast; omega)
    have e1 : y + ((k + 1 : Nat) : Int) * dy = y + k * dy + dy := by push_cast; ring
    have e2 : x + ((k + 1 : Nat) : Int) * dx = x + k * dx + dx := by push_cast; ring
    have e3 : y + ((k : Int) + 1) * dy = y + k * dy + dy := by ring
    have e4 : x + ((k : Int) + 1) * dx = x + k * dx + dx := by ring
    rw [e3, e4] at hk1
    rw [e1, e2, evaluateDirection_step board _ _ dy dx p hd hk.1 hk.2 hk1.1 hk1.2]
    exact ih (fun j h0 hj => h j h0 (by push_cast; omega))

/-- C13. Two cells of one contiguous run of `p`-stones along an axis direction
get the same value from `evaluateDirection` along that direction.  On the
board whose only stones are AI stones at row 7, columns 3 to 6, each of the
four stones gets 100000 along (0,1), and `evaluatePosition` is 100000. -/
theorem evaluateDirection_same_in_run :
    (∀ (board : Board) (y x dy dx : Int) (p : Char) (k : Nat), (dy, dx) ∈ directions →
        (∀ j : Int, 0 ≤ j → j ≤ k →
          inBoard (y + j * dy) (x + j * dx) = true ∧ board (y + j * dy) (x + j * dx) = p) →
        evaluateDirection board (y + k * dy) (x + k * dx) dy dx p
          = evaluateDirection board y x dy dx p) ∧
      (∀ x : Int, 3 ≤ x → x ≤ 6 →
        fourInRow 7 x = AI_PIECE ∧
        evaluateDirection fourInRow 7 x 0 1 AI_PIECE = some FOUR_SCORE ∧
        evaluatePosition fourInRow 7 x AI_PIECE = 100000) ∧
      FOUR_SCORE = 100000 := by
  refine ⟨?_, ?_, rfl⟩
  · intro board y x dy dx p k hdir h
    exact evaluateDirection_along_run board y x dy dx p (directions_ne_zero dy dx hdir) k h
  · intro x h1 h2
    have hx : x = 3 ∨ x = 4 ∨ x = 5 ∨ x = 6 := by omega
    rcases hx with rfl | rfl | rfl | rfl <;> decide

theorem evaluateDirection_same_in_run_witness :
    evaluateDirection fourInRow (7 + (3 : Nat) * 0) (3 + (3 : Nat) * 1) 0 1 AI_PIECE
      = evaluateDirection fourInRow 7 3 0 1 AI_PIECE :=
  evaluateDirection_same_in_run.1 fourInRow 7 3 0 1 AI_PIECE 3 (by decide) (by
    intro j h0 h3
    have hj : j = 0 ∨ j = 1 ∨ j = 2 ∨ j = 3 := by push_cast at h3; omega
    rcases hj with rfl | rfl | rfl | rfl <;> decide)

theorem sum_map_le_of_nodup_subset (f : Move → Int) (t l : List Move) (ht : t.Nodup)
    (hsub : t ⊆ l) (hnn : ∀ c ∈ l, 0 ≤ f c) : (t.map f).sum ≤ (l.map f).sum := by
  obtain ⟨t', hperm, hsl⟩ := List.subperm_of_subset ht hsub
  rw [← (hperm.map f).sum_eq]
  apply List.Sublist.sum_le_sum (hsl.map f)
  intro a ha
  obtain ⟨c, hc, rfl⟩ := List.mem_map.1 ha
  exact hnn c hc

theorem sideScore_human_zero (board : Board)
    (hno : ∀ y x, inBoard y x = true → board y x ≠ HUMAN_PIECE) :
    sideScore board HUMAN_PIECE = 0 := by
  unfold sideScore
  have : cells.filter (fun c => decide (board c.1 c.2 = HUMAN_PIECE)) = [] := by
    rw [List.filter_eq_nil_iff]
    intro c hc
    simpa using hno c.1 c.2 ((mem_cells c).1 hc)
  rw [this]; rfl

/-- A cell that starts five stones of `p` in a row scores `WIN_SCORE` along the row. -/
theorem evaluateDirection_five (board : Board) (y x dy dx : Int) (p : Char)
    (hd : dy ≠ 0 ∨ dx ≠ 0)
    (hfive : ∀ j : Int, 0 ≤ j → j ≤ 4 →
      inBoard (y + j * dy) (x + j * dx) = true ∧ board (y + j * dy) (x + j * dx) = p) :
    evaluateDirection board y x dy dx p = some 1000000 := by
  obtain ⟨a, b, ha, -, he⟩ := evaluateDirection_eq board y x dy dx p hd
  have h4 : 4 ≤ a := isSideRun_ge board y x dy dx p a 4 ha
    (fun j h1 h2 => hfive j (by omega) (by push_cast at h2; omega))
  rw [he]
  unfold patternScore WIN_SCORE
  rw [if_pos (by omega)]

theorem evaluatePosition_five (board : Board) (y x dy dx : Int) (p : Char)
    (hdir : (dy, dx) ∈ directions) (k : Nat) (hk : k ≤ 4)
    (hfive : ∀ j : Int, 0 ≤ j → j ≤ 4 →
      inBoard (y + j * dy) (x + j * dx) = true ∧ board (y + j * dy) (x + j * dx) = p) :
    1000000 ≤ evaluatePosition board (y + k * dy) (x + k * dx) p := by
  have hd := directions_ne_zero dy dx hdir
  have hv : evaluateDirection board (y + k * dy) (x + k * dx) dy dx p = some 1000000 := by
    rw [evaluateDirection_along_run board y x dy dx p hd k
      (fun j h0 hj => hfive j h0 (by have : (k : Int) ≤ 4 := by exact_mod_cast hk
                                     omega))]
    exact evaluateDirection_five board y x dy dx p hd hfive
  obtain ⟨v1, v2, v3, v4, h1, h2, h3, h4, h⟩ :=
    evaluatePosition_eq board (y + k * dy) (x + k * dx) p
  have r1 := evaluateDirection_range _ _ _ _ _ _ _ h1
  have r2 := evaluateDirection_range _ _ _ _ _ _ _ h2
  have r3 := evaluateDirection_range _ _ _ _ _ _ _ h3
  have r4 := evaluateDirection_range _ _ _ _ _ _ _ h4
  simp only [directions, List.mem_cons, Prod.mk.injEq, List.mem_singleton, List.mem_nil_iff,
    or_false] at hdir
  rcases hdir with ⟨rfl, rfl⟩ | ⟨rfl, rfl⟩ | ⟨rfl, rfl⟩ | ⟨rfl, rfl⟩
  · rw [h1] at hv; simp only [Option.some.injEq] at hv; omega
  · rw [h2] at hv; simp only [Option.some.injEq] at hv; omega
  · rw [h3] at hv; simp only [Option.some.injEq] at hv; omega
  · rw [h4] at hv; simp only [Option.some.injEq] at hv; omega

theorem sideScore_five (board : Board) (y x dy dx : Int) (p : Char)
    (hdir : (dy, dx) ∈ directions)
    (hfive : ∀ j : Int, 0 ≤ j → j ≤ 4 →
      inBoard (y + j * dy) (x + j * dx) = true ∧ board (y + j * dy) (x + j * dx) = p) :
    5000000 ≤ sideScore board p := by
  have hd := directions_ne_zero dy dx hdir
  let t : List Move := (List.range 5).map (fun k : Nat => (y + k * dy, x + k * dx))
  have htn : t.Nodup := by
    apply List.Nodup.map_on _ (List.nodup_range 5)
    intro a _ b _ hab
    simp only [Prod.mk.injEq] at hab
    have h1 : (a : Int) * dy = b * dy := by omega
    have h2 : (a : Int) * dx = b * dx := by omega
    rcases hd with hd | hd
    · exact_mod_cast mul_right_cancel₀ hd h1
    · exact_mod_cast mul_right_cancel₀ hd h2
  have hsub : t ⊆ cells.filter (fun c => decide (board c.1 c.2 = p)) := by
    intro c hc
    simp only [t, List.mem_map, List.mem_range] at hc
    obtain ⟨k, hk, rfl⟩ := hc
    have := hfive k (by omega) (by exact_mod_cast Nat.le_of_lt_succ hk)
    rw [List.mem_filter]
    exact ⟨(mem_cells _).2 this.1, by simpa using this.2⟩
  have hle := sum_map_le_of_nodup_subset (fun c => evaluatePosition board c.1 c.2 p) t _ htn hsub
    (fun c _ => (evaluatePosition_range board c.1 c.2 p).1)
  have h0 := evaluatePosition_five board y x dy dx p hdir 0 (by decide) hfive
  have h1 := evaluatePosition_five board y x dy dx p hdir 1 (by decide) hfive
  have h2 := evaluatePosition_five board y x dy dx p hdir 2 (by decide) hfive
  have h3 := evaluatePosition_five board y x dy dx p hdir 3 (by decide) hfive
  have h4 := evaluatePosition_five board y x dy dx p hdir 4 (by decide) hfive
  have hsum : (t.map (fun c => evaluatePosition board c.1 c.2 p)).sum
      = evaluatePosition board (y + (0 : Nat) * dy) (x + (0 : Nat) * dx) p
        + (evaluatePosition board (y + (1 : Nat) * dy) (x + (1 : Nat) * dx) p
        + (evaluatePosition board (y + (2 : Nat) * dy) (x + (2 : Nat) * dx) p
        + (evaluatePosition board (y + (3 : Nat) * dy) (x + (3 : Nat) * dx) p
        + (evaluatePosition board (y + (4 : Nat) * dy) (x + (4 : Nat) * dx) p + 0)))) := rfl
  unfold sideScore
  omega

/-- C14. On a board with no Human stone that holds five AI stones in a row
along one of the four axes, `evaluateGameState` on a cache miss returns at
least `5 * WIN_SCORE`.  With AI stones at row 7, columns 3 to 6, and a fifth at
column 2 or at column 7, and nothing else, it returns exactly 5000000. -/
theorem evaluateGameState_five_in_row :
    (∀ (s : State) (y x dy dx : Int),
        s.transpositionTable s.currentHash = none →
        (∀ y x, inBoard y x = true → s.board y x ≠ HUMAN_PIECE) →
        (dy, dx) ∈ directions →
        (∀ j : Int, 0 ≤ j → j ≤ 4 →
          inBoard (y + j * dy) (x + j * dx) = true ∧
            s.board (y + j * dy) (x + j * dx) = AI_PIECE) →
        5 * WIN_SCORE ≤ (evaluateGameState s).1) ∧
      (∀ (currentHash : Nat),
        (evaluateGameState ⟨fiveInRow, currentHash, fun _ => none⟩).1 = 5000000 ∧
        (evaluateGameState ⟨fiveInRowRight, currentHash, fun _ => none⟩).1 = 5000000) := by
  constructor
  · intro s y x dy dx hmiss hno hdir hfive
    rw [evaluateGameState_of_miss s hmiss]
    simp only
    rw [staticScore_eq, sideScore_human_zero s.board hno]
    have := sideScore_five s.board y x dy dx AI_PIECE hdir hfive
    unfold WIN_SCORE
    omega
  · intro currentHash
    constructor
    · rw [evaluateGameState_of_miss _ rfl]
      show staticScore fiveInRow = 5000000
      set_option maxRecDepth 100000 in decide
    · rw [evaluateGameState_of_miss _ rfl]
      show staticScore fiveInRowRight = 5000000
      set_option maxRecDepth 100000 in decide

theorem evaluateGameState_five_in_row_witness :
    5 * WIN_SCORE ≤ (evaluateGameState ⟨fiveInRow, 0, fun _ => none⟩).1 :=
  evaluateGameState_five_in_row.1 ⟨fiveInRow, 0, fun _ => none⟩ 7 2 0 1 rfl
    (by intro y x _; show (if y = 7 ∧ 2 ≤ x ∧ x ≤ 6 then AI_PIECE else EMPTY_CELL) ≠ _
        split_ifs <;> decide) (by decide)
    (by
      intro j h0 h4
      have hj : j = 0 ∨ j = 1 ∨ j = 2 ∨ j = 3 ∨ j = 4 := by omega
      rcases hj with rfl | rfl | rfl | rfl | rfl <;> decide)

/-! ## Apply/undo discipline of the search -/

theorem hasEmptyCells_of_count (board : Board) (d : Nat) (h : d ≤ emptyCount board) :
    HasEmptyCells board d := by
  refine ⟨cells.filter (fun c => decide (board c.1 c.2 = EMPTY_CELL)),
    cells_nodup.filter _, h, ?_⟩
  intro c hc
  rw [List.mem_filter] at hc
  exact ⟨(mem_cells c).1 hc.1, by simpa using hc.2⟩

theorem hasEmptyCells_mono (board : Board) (d e : Nat) (hle : e ≤ d)
    (h : HasEmptyCells board d) : HasEmptyCells board e := by
  obtain ⟨l, h1, h2, h3⟩ := h
  exact ⟨l, h1, by omega, h3⟩

theorem hasEmptyCells_setCell (board : Board) (d : Nat) (y x : Int) (p : Char)
    (h : HasEmptyCells board (d + 1)) : HasEmptyCells (setCell board y x p) d := by
  obtain ⟨l, h1, h2, h3⟩ := h
  refine ⟨l.erase (y, x), h1.erase _, ?_, ?_⟩
  · have := List.length_erase_le (y, x) l
    by_cases hm : (y, x) ∈ l
    · rw [List.length_erase_of_mem hm]; omega
    · rw [List.erase_of_not_mem hm]; omega
  · intro c hc
    have hne : c ≠ (y, x) := fun he => by
      rw [he] at hc
      exact (List.Nodup.not_mem_erase h1) hc
    have hcl := h3 c (List.mem_of_mem_erase hc)
    refine ⟨hcl.1, ?_⟩
    unfold setCell
    rw [if_neg]
    · exact hcl.2
    · rintro ⟨e1, e2⟩
      exact hne (Prod.ext e1 e2)

theorem hasEmptyCells_exists (board : Board) (d : Nat) (h : HasEmptyCells board (d + 1)) :
    ∃ y x, inBoard y x = true ∧ board y x = EMPTY_CELL := by
  obtain ⟨l, -, h2, h3⟩ := h
  cases l with
  | nil => simp at h2
  | cons c l => exact ⟨c.1, c.2, h3 c (List.mem_cons_self _ _)⟩

/-- One pass of the candidate loop keeps a property `P` of the state, given a
property `Q m` that holds while candidate `m` is on the board. -/
theorem searchLoop_inv (zobristTable : ZobristTable) (probe : Option Callee) (child : Callee)
    (beta : Int) (player : Char) (P : State → Prop) (Q : Move → State → Prop)
    (l : List Move)
    (hmake : ∀ m ∈ l, ∀ t, P t → Q m (makeMove zobristTable t m.1 m.2 player))
    (hprobe : ∀ f, probe = some f → ∀ m ∈ l, ∀ a b q t, Q m t → Q m (f a b q t).2)
    (hchild : ∀ m ∈ l, ∀ a b q t, Q m t → Q m (child a b q t).2)
    (hundo : ∀ m ∈ l, ∀ t, Q m t → P (undoMove zobristTable t m.1 m.2 player)) :
    ∀ (alpha bestValue : Int) (s : State), P s →
      P (searchLoop zobristTable probe child beta player l alpha bestValue s).2 := by
  induction l with
  | nil => intro alpha bestValue s hs; exact hs
  | cons m rest ih =>
    intro alpha bestValue s hs
    obtain ⟨y, x⟩ := m
    have hm : ((y, x) : Move) ∈ (y, x) :: rest := List.mem_cons_self _ _
    have ih' := ih (fun m hm => hmake m (List.mem_cons_of_mem _ hm))
      (fun f hf m hm => hprobe f hf m (List.mem_cons_of_mem _ hm))
      (fun m hm => hchild m (List.mem_cons_of_mem _ hm))
      (fun m hm => hundo m (List.mem_cons_of_mem _ hm))
    have hq1 : Q (y, x) (makeMove zobristTable s y x player) := hmake (y, x) hm s hs
    have hpr : Q (y, x)
        (nullMoveProbe probe beta player (makeMove zobristTable s y x player)).2 := by
      cases hp : probe with
      | none => exact hq1
      | some f => exact hprobe f hp (y, x) hm _ _ _ _ hq1
    have hch : ∀ a b q, P (undoMove zobristTable (child a b q
        (nullMoveProbe probe beta player (makeMove zobristTable s y x player)).2).2
          y x player) := fun a b q => hundo (y, x) hm _ (hchild (y, x) hm a b q _ hpr)
    rw [searchLoop_cons]
    split_ifs
    all_goals first
      | exact hundo (y, x) hm _ hpr
      | exact hch _ _ _
      | exact ih' _ _ _ (hch _ _ _)

/-- `negamax` leaves `currentHash` as it found it. -/
theorem negamax_hash (zobristTable : ZobristTable) (sortMoves : Sorter) :
    ∀ (depth : Nat) (alpha beta : Int) (player : Char) (s : State),
      (negamax zobristTable sortMoves depth alpha beta player s).2.currentHash
        = s.currentHash := by
  intro depth
  induction depth using Nat.strong_induction_on with
  | _ d ih =>
    intro alpha beta player s
    by_cases hd : d = 0
    · subst hd
      rw [negamax_zero]
      cases hc : s.transpositionTable s.currentHash with
      | some v => rw [evaluateGameState_hit s v hc]
      | none => rw [evaluateGameState_of_miss s hc]
    · rw [negamax_pos _ _ _ _ _ _ _ hd]
      apply searchLoop_inv zobristTable _ _ beta player
        (fun t => t.currentHash = s.currentHash)
        (fun m t => t.currentHash = updateHash zobristTable m.1 m.2 player s.currentHash)
      · intro m _ t ht
        simp only [makeMove, ht]
      · intro f hf m _ a b q t ht
        split_ifs at hf with h3
        simp only [Option.some.injEq] at hf
        subst hf
        rw [ih (d - 1 - 2) (by omega), ht]
      · intro m _ a b q t ht
        rw [ih (d - 1) (by omega), ht]
      · intro m _ t ht
        simp only [undoMove, ht, updateHash_updateHash]
      · rfl

/-- `negamax` leaves the cell grid as it found it when the board has an empty
cell for each ply. -/
theorem negamax_board (zobristTable : ZobristTable) (sortMoves : Sorter)
    (hsort : SortPermutes sortMoves) :
    ∀ (depth : Nat) (alpha beta : Int) (player : Char) (s : State),
      HasEmptyCells s.board depth →
      (negamax zobristTable sortMoves depth alpha beta player s).2.board = s.board := by
  intro depth
  induction depth using Nat.strong_induction_on with
  | _ d ih =>
    intro alpha beta player s hcells
    by_cases hd : d = 0
    · subst hd
      rw [negamax_zero]
      cases hc : s.transpositionTable s.currentHash with
      | some v => rw [evaluateGameState_hit s v hc]
      | none => rw [evaluateGameState_of_miss s hc]
    · obtain ⟨e, rfl⟩ : ∃ e, d = e + 1 := ⟨d - 1, by omega⟩
      have hmem : ∀ m ∈ sortMoves (moveOrder s.board) (getNearbyMoves s.board),
          s.board m.1 m.2 = EMPTY_CELL := by
        intro m hm
        have hm' : m ∈ getNearbyMoves s.board := (hsort _ _).subset hm
        have hall : ∀ m ∈ getNearbyMoves s.board,
            inBoard m.1 m.2 = true ∧ s.board m.1 m.2 = EMPTY_CELL := by
          by_cases h : nearCells s.board = []
          · rw [getNearbyMoves_of_nearCells_nil s.board h]
            intro c hc
            simp only [List.mem_singleton] at hc
            subst hc
            exact ⟨by decide, centre_empty_of_nearCells_nil s.board h
              (hasEmptyCells_exists s.board e hcells)⟩
          · rw [getNearbyMoves_of_nearCells_ne_nil s.board h]
            rintro ⟨y, x⟩ hc
            obtain ⟨hin, he, -⟩ := (mem_nearCells s.board y x).1 hc
            exact ⟨hin, he⟩
        exact (hall m hm').2
      rw [negamax_pos _ _ _ _ _ _ _ hd]
      apply searchLoop_inv zobristTable _ _ beta player
        (fun t => t.board = s.board)
        (fun m t => t.board = setCell s.board m.1 m.2 player)
      · intro m _ t ht
        simp only [makeMove, ht]
      · intro f hf m _ a b q t ht
        split_ifs at hf with h3
        simp only [Option.some.injEq] at hf
        subst hf
        rw [ih (e + 1 - 1 - 2) (by omega) _ _ _ _ (by
          rw [ht]
          exact hasEmptyCells_mono _ e _ (by omega)
            (hasEmptyCells_setCell s.board e m.1 m.2 player hcells)), ht]
      · intro m _ a b q t ht
        rw [ih (e + 1 - 1) (by omega) _ _ _ _ (by
          rw [ht]
          exact hasEmptyCells_setCell s.board e m.1 m.2 player hcells), ht]
      · intro m hm t ht
        simp only [undoMove, ht]
        exact setCell_setCell_empty s.board m.1 m.2 player (hmem m hm)
      · rfl

theorem getNearbyMoves_fullBoard : getNearbyMoves fullBoard = [(7, 7)] := by
  apply getNearbyMoves_of_nearCells_nil
  rw [nearCells_eq_nil_iff]
  intro y x _ he
  simp [fullBoard, HUMAN_PIECE, EMPTY_CELL] at he

theorem getNearbyMoves_empty_cells (board : Board)
    (hex : ∃ y x, inBoard y x = true ∧ board y x = EMPTY_CELL) :
    ∀ m ∈ getNearbyMoves board, inBoard m.1 m.2 = true ∧ board m.1 m.2 = EMPTY_CELL := by
  by_cases h : nearCells board = []
  · rw [getNearbyMoves_of_nearCells_nil board h]
    intro c hc
    simp only [List.mem_singleton] at hc
    subst hc
    exact ⟨by decide, centre_empty_of_nearCells_nil board h hex⟩
  · rw [getNearbyMoves_of_nearCells_ne_nil board h]
    rintro ⟨y, x⟩ hc
    obtain ⟨hin, he, -⟩ := (mem_nearCells board y x).1 hc
    exact ⟨hin, he⟩

/-- One pass of the root loop keeps a property `P` of the state, given a
property `Q m` that holds while candidate `m` is on the board. -/
theorem bestMoveLoop_inv (zobristTable : ZobristTable) (sortMoves : Sorter)
    (P : State → Prop) (Q : Move → State → Prop) (l : List Move)
    (hmake : ∀ m ∈ l, ∀ t, P t → Q m (makeMove zobristTable t m.1 m.2 AI_PIECE))
    (hsearch : ∀ m ∈ l, ∀ t, Q m t →
      Q m (negamax zobristTable sortMoves 7 INT_MIN INT_MAX HUMAN_PIECE t).2)
    (hundo : ∀ m ∈ l, ∀ t, Q m t → P (undoMove zobristTable t m.1 m.2 AI_PIECE)) :
    ∀ (bestValue : Int) (bestMove : Move) (s : State), P s →
      P (bestMoveLoop zobristTable sortMoves l bestValue bestMove s).2 := by
  induction l with
  | nil => intro bestValue bestMove s hs; exact hs
  | cons m rest ih =>
    intro bestValue bestMove s hs
    obtain ⟨y, x⟩ := m
    have hm : ((y, x) : Move) ∈ (y, x) :: rest := List.mem_cons_self _ _
    have ih' := ih (fun m hm => hmake m (List.mem_cons_of_mem _ hm))
      (fun m hm => hsearch m (List.mem_cons_of_mem _ hm))
      (fun m hm => hundo m (List.mem_cons_of_mem _ hm))
    have hs2 : P (undoMove zobristTable (negamax zobristTable sortMoves 7 INT_MIN INT_MAX
        HUMAN_PIECE (makeMove zobristTable s y x AI_PIECE)).2 y x AI_PIECE) :=
      hundo (y, x) hm _ (hsearch (y, x) hm _ (hmake (y, x) hm s hs))
    simp only [bestMoveLoop]
    split_ifs
    all_goals first
      | exact hs2
      | exact ih' _ _ _ hs2

theorem findBestMove_hash (zobristTable : ZobristTable) (sortMoves : Sorter) (s : State) :
    (findBestMove zobristTable sortMoves s).2.currentHash = s.currentHash := by
  unfold findBestMove
  apply bestMoveLoop_inv zobristTable sortMoves
    (fun t => t.currentHash = s.currentHash)
    (fun m t => t.currentHash = updateHash zobristTable m.1 m.2 AI_PIECE s.currentHash)
  · intro m _ t ht
    simp only [makeMove, ht]
  · intro m _ t ht
    rw [negamax_hash, ht]
  · intro m _ t ht
    simp only [undoMove, ht, updateHash_updateHash]
  · rfl

theorem findBestMove_board (zobristTable : ZobristTable) (sortMoves : Sorter)
    (hsort : SortPermutes sortMoves) (s : State) (hcells : HasEmptyCells s.board 8) :
    (findBestMove zobristTable sortMoves s).2.board = s.board := by
  unfold findBestMove
  apply bestMoveLoop_inv zobristTable sortMoves
    (fun t => t.board = s.board)
    (fun m t => t.board = setCell s.board m.1 m.2 AI_PIECE)
  · intro m _ t ht
    simp only [makeMove, ht]
  · intro m _ t ht
    rw [negamax_board zobristTable sortMoves hsort 7 _ _ _ _ (by
      rw [ht]
      exact hasEmptyCells_setCell s.board 7 m.1 m.2 AI_PIECE hcells), ht]
  · intro m hm t ht
    simp only [undoMove, ht]
    exact setCell_setCell_empty s.board m.1 m.2 AI_PIECE
      (getNearbyMoves_empty_cells s.board (hasEmptyCells_exists s.board 7 hcells) m hm).2
  · rfl

/-- C11, as stated, fails: on the board with no empty cell `findBestMove`
returns with the centre cell empty, though it held a stone before the call. -/
theorem findBestMove_full_board_changes_grid :
    (findBestMove testKeys insertionSorter fullState).2.board 7 7 = EMPTY_CELL ∧
      fullState.board 7 7 = HUMAN_PIECE ∧
      (findBestMove testKeys insertionSorter fullState).2.board ≠ fullState.board := by
  have h : (findBestMove testKeys insertionSorter fullState).2.board 7 7 = EMPTY_CELL := by
    unfold findBestMove
    have hb : fullState.board = fullBoard := rfl
    rw [hb, getNearbyMoves_fullBoard]
    simp only [bestMoveLoop]
    split_ifs <;> simp [undoMove, setCell]
  refine ⟨h, rfl, ?_⟩
  intro heq
  rw [heq] at h
  exact absurd h (by decide)

/-- C11, amended. When `findBestMove` returns, `currentHash` has its value from
before the call on every board, and the cell grid has too on every board with
at least 8 empty cells, one for each ply of the search. -/
theorem findBestMove_restores (zobristTable : ZobristTable) (sortMoves : Sorter)
    (hsort : SortPermutes sortMoves) (s : State) :
    (findBestMove zobristTable sortMoves s).2.currentHash = s.currentHash ∧
      (8 ≤ emptyCount s.board →
        (findBestMove zobristTable sortMoves s).2.board = s.board) :=
  ⟨findBestMove_hash zobristTable sortMoves s,
    fun h => findBestMove_board zobristTable sortMoves hsort s
      (hasEmptyCells_of_count s.board 8 h)⟩

set_option maxRecDepth 100000 in
theorem emptyCount_emptyBoard : emptyCount emptyBoard = 225 := by
  decide

theorem findBestMove_restores_witness :
    (findBestMove testKeys insertionSorter emptyState).2.currentHash = emptyState.currentHash ∧
      (findBestMove testKeys insertionSorter emptyState).2.board = emptyState.board :=
  have h := findBestMove_restores testKeys insertionSorter insertionSorter_sortPermutes emptyState
  ⟨h.1, h.2 (by
    have : emptyCount emptyState.board = 225 := emptyCount_emptyBoard
    omega)⟩

/-- C15. For every depth `d`, window and player, on a board with at least `d`
empty cells `negamax` returns with the cell grid and `currentHash` as they were
before the call; of the state only the transposition table may differ. -/
theorem negamax_restores (zobristTable : ZobristTable) (sortMoves : Sorter)
    (hsort : SortPermutes sortMoves) (depth : Nat) (alpha beta : Int) (player : Char)
    (s : State) (hcells : depth ≤ emptyCount s.board) :
    (negamax zobristTable sortMoves depth alpha beta player s).2.board = s.board ∧
      (negamax zobristTable sortMoves depth alpha beta player s).2.currentHash
        = s.currentHash :=
  ⟨negamax_board zobristTable sortMoves hsort depth alpha beta player s
      (hasEmptyCells_of_count s.board depth hcells),
    negamax_hash zobristTable sortMoves depth alpha beta player s⟩

theorem negamax_restores_witness :
    (negamax testKeys insertionSorter 4 (-5) 5 HUMAN_PIECE emptyState).2.board
        = emptyState.board ∧
      (negamax testKeys insertionSorter 4 (-5) 5 HUMAN_PIECE emptyState).2.currentHash
        = emptyState.currentHash :=
  negamax_restores testKeys insertionSorter insertionSorter_sortPermutes 4 (-5) 5 HUMAN_PIECE
    emptyState (by
      have : emptyCount emptyState.board = 225 := emptyCount_emptyBoard
      omega)

/-! ## Termination -/

/-- C18. `negamax` is a total function of a depth `>= 0`: at depth 0 it makes no
recursive call; at any other depth it is its candidate loop, whose calls are
made at `depth - 1` and, only when `depth >= 3`, at `depth - 3`, both smaller
than `depth` and not negative; the scans of `evaluateDirection` in the four
directions end; and `findBestMove` is its loop over the candidates, each step
calling `negamax` at depth 7. -/
theorem negamax_total (zobristTable : ZobristTable) (sortMoves : Sorter) (depth : Nat)
    (alpha beta : Int) (player : Char) (s : State) :
    (depth = 0 →
        negamax zobristTable sortMoves depth alpha beta player s = evaluateGameState s) ∧
      (depth ≠ 0 →
        (depth - 1 < depth ∧ ((depth - 1 : Nat) : Int) = (depth : Int) - 1) ∧
        (depth ≥ 3 → depth - 1 - 2 < depth ∧ ((depth - 1 - 2 : Nat) : Int) = (depth : Int) - 3) ∧
        negamax zobristTable sortMoves depth alpha beta player s
          = searchLoop zobristTable
              (if depth ≥ 3 then some (negamax zobristTable sortMoves (depth - 1 - 2)) else none)
              (negamax zobristTable sortMoves (depth - 1))
              beta player (sortMoves (moveOrder s.board) (getNearbyMoves s.board))
              alpha INT_MIN s) ∧
      (∀ (board : Board) (y x dy dx : Int) (p : Char), (dy, dx) ∈ directions →
        ∃ v, evaluateDirection board y x dy dx p = some v) ∧
      (∃ r : Int × State, negamax zobristTable sortMoves depth alpha beta player s = r) ∧
      (∃ r : Move × State, findBestMove zobristTable sortMoves s = r ∧
        r = bestMoveLoop zobristTable sortMoves (getNearbyMoves s.board) INT_MIN (7, 7) s) := by
  refine ⟨?_, ?_, ?_, ⟨_, rfl⟩, ⟨_, rfl, rfl⟩⟩
  · intro h0
    subst h0
    exact negamax_zero _ _ _ _ _ _
  · intro hd
    refine ⟨⟨by omega, by omega⟩, fun h3 => ⟨by omega, by omega⟩, ?_⟩
    exact negamax_pos _ _ _ _ _ _ _ hd
  · intro board y x dy dx p hdir
    exact evaluateDirection_isSome board y x dy dx p hdir

theorem negamax_total_witness :
    negamax testKeys insertionSorter 0 0 0 HUMAN_PIECE emptyState = evaluateGameState emptyState ∧
      (7 - 1 < 7 ∧ 7 - 1 - 2 < 7) ∧
      negamax testKeys insertionSorter 7 INT_MIN INT_MAX HUMAN_PIECE emptyState
        = searchLoop testKeys
            (if 7 ≥ 3 then some (negamax testKeys insertionSorter (7 - 1 - 2)) else none)
            (negamax testKeys insertionSorter (7 - 1))
            INT_MAX HUMAN_PIECE
            (insertionSorter (moveOrder emptyState.board) (getNearbyMoves emptyState.board))
            INT_MIN INT_MIN emptyState ∧
      ∃ v, evaluateDirection fourInRow 7 4 1 (-1) AI_PIECE = some v :=
  have h0 := negamax_total testKeys insertionSorter 0 0 0 HUMAN_PIECE emptyState
  have h7 := negamax_total testKeys insertionSorter 7 INT_MIN INT_MAX HUMAN_PIECE emptyState
  ⟨h0.1 rfl, ⟨(h7.2.1 (by decide)).1.1, ((h7.2.1 (by decide)).2.1 (by decide)).1⟩,
    (h7.2.1 (by decide)).2.2, h7.2.2.1 fourInRow 7 4 1 (-1) AI_PIECE (by decide)⟩

/-! ## The cache does not change the static score -/

theorem scanSide_congr (b1 b2 : Board) (h : SameGrid b1 b2) (y x dy dx : Int) (p : Char) :
    ∀ (fuel : Nat) (i : Int) (st : Int × Int),
      scanSide b1 y x dy dx p fuel i st = scanSide b2 y x dy dx p fuel i st := by
  intro fuel
  induction fuel with
  | zero => intro i st; rfl
  | succ n ih =>
    intro i st
    obtain ⟨c, o⟩ := st
    simp only [scanSide]
    by_cases hout : y + i * dy < 0 ∨ y + i * dy ≥ BOARD_SIZE ∨ x + i * dx < 0 ∨
        x + i * dx ≥ BOARD_SIZE
    · rw [if_pos hout, if_pos hout]
    · rw [if_neg hout, if_neg hout]
      have hin : inBoard (y + i * dy) (x + i * dx) = true := by
        rw [inBoard_iff]
        unfold BOARD_SIZE at hout
        omega
      rw [h _ _ hin, ih]

theorem evaluateDirection_congr (b1 b2 : Board) (h : SameGrid b1 b2) (y x dy dx : Int)
    (p : Char) : evaluateDirection b1 y x dy dx p = evaluateDirection b2 y x dy dx p := by
  unfold evaluateDirection
  simp only [scanSide_congr b1 b2 h]

theorem evaluatePosition_congr (b1 b2 : Board) (h : SameGrid b1 b2) (y x : Int) (p : Char) :
    evaluatePosition b1 y x p = evaluatePosition b2 y x p := by
  unfold evaluatePosition
  simp only [evaluateDirection_congr b1 b2 h]

theorem sideScore_congr (b1 b2 : Board) (h : SameGrid b1 b2) (p : Char) :
    sideScore b1 p = sideScore b2 p := by
  unfold sideScore
  have hf : cells.filter (fun c => decide (b1 c.1 c.2 = p))
      = cells.filter (fun c => decide (b2 c.1 c.2 = p)) := by
    apply List.filter_congr
    intro c hc
    rw [h c.1 c.2 ((mem_cells c).1 hc)]
  rw [hf]
  congr 1
  apply List.map_congr_left
  intro c _
  exact evaluatePosition_congr b1 b2 h c.1 c.2 p

theorem staticScore_congr (b1 b2 : Board) (h : SameGrid b1 b2) :
    staticScore b1 = staticScore b2 := by
  rw [staticScore_eq, staticScore_eq, sideScore_congr b1 b2 h, sideScore_congr b1 b2 h]

theorem foldl_max_ge_init (l : List Int) (a : Int) : a ≤ l.foldl max a := by
  induction l generalizing a with
  | nil => exact le_refl a
  | cons w l ih => exact le_trans (le_max_left a w) (ih (max a w))

theorem foldl_max_ge_mem (l : List Int) (a : Int) : ∀ w ∈ l, w ≤ l.foldl max a := by
  induction l generalizing a with
  | nil => intro w hw; exact absurd hw (List.not_mem_nil w)
  | cons u l ih =>
    intro w hw
    rcases List.mem_cons.1 hw with rfl | hw
    · exact le_trans (le_max_right a w) (foldl_max_ge_init l (max a w))
    · exact ih (max a u) w hw

theorem foldl_max_mem (l : List Int) (a : Int) : l.foldl max a = a ∨ l.foldl max a ∈ l := by
  induction l generalizing a with
  | nil => left; rfl
  | cons u l ih =>
    rcases ih (max a u) with h | h
    · rcases max_choice a u with h' | h'
      · left; rw [List.foldl_cons, h, h']
      · right; rw [List.foldl_cons, h, h']; exact List.mem_cons_self _ _
    · right; exact List.mem_cons_of_mem _ h

theorem listMax_isMax (l : List Int) (hne : l ≠ []) (hlow : ∀ w ∈ l, INT_MIN < w) :
    listMax l ∈ l ∧ ∀ w ∈ l, w ≤ listMax l := by
  refine ⟨?_, foldl_max_ge_mem l INT_MIN⟩
  rcases foldl_max_mem l INT_MIN with h | h
  · cases l with
    | nil => exact absurd rfl hne
    | cons u l =>
      have h1 := foldl_max_ge_mem (u :: l) INT_MIN u (List.mem_cons_self _ _)
      have h2 := hlow u (List.mem_cons_self _ _)
      rw [h] at h1
      omega
  · exact h

/-- The candidate loop of a node without null-move probe: when every child
agrees with its own unpruned value on the window it is given, the loop agrees
with the greatest negated child value on its window. -/
theorem alphaBetaLoop (zobristTable : ZobristTable) (child : Callee) (beta : Int)
    (player : Char) (g : Move → Int) (Inv : State → Prop) (l : List Move)
    (hstep : ∀ m ∈ l, ∀ (a : Int) (t : State), Inv t → INT_MIN < a → a < beta →
      Inv (undoMove zobristTable (child (negInt32 beta) (negInt32 a) (otherPlayer player)
        (makeMove zobristTable t m.1 m.2 player)).2 m.1 m.2 player) ∧
      -1800000000 ≤ negInt32 (child (negInt32 beta) (negInt32 a) (otherPlayer player)
        (makeMove zobristTable t m.1 m.2 player)).1 ∧
      negInt32 (child (negInt32 beta) (negInt32 a) (otherPlayer player)
        (makeMove zobristTable t m.1 m.2 player)).1 ≤ 1800000000 ∧
      WindowAgrees (negInt32 (child (negInt32 beta) (negInt32 a) (otherPlayer player)
        (makeMove zobristTable t m.1 m.2 player)).1) (g m) a beta) :
    ∀ (alpha best : Int) (s : State), Inv s → INT_MIN < alpha → alpha < beta → best ≤ alpha →
      Inv (searchLoop zobristTable none child beta player l alpha best s).2 ∧
      best ≤ (searchLoop zobristTable none child beta player l alpha best s).1 ∧
      ((searchLoop zobristTable none child beta player l alpha best s).1 = best ∨
        (-1800000000 ≤ (searchLoop zobristTable none child beta player l alpha best s).1 ∧
          (searchLoop zobristTable none child beta player l alpha best s).1 ≤ 1800000000)) ∧
      (best < -1800000000 → l ≠ [] →
        (-1800000000 ≤ (searchLoop zobristTable none child beta player l alpha best s).1 ∧
          (searchLoop zobristTable none child beta player l alpha best s).1 ≤ 1800000000)) ∧
      ((∀ m ∈ l, g m ≤ alpha) →
        (searchLoop zobristTable none child beta player l alpha best s).1 ≤ alpha) ∧
      ((∃ m ∈ l, beta ≤ g m) →
        beta ≤ (searchLoop zobristTable none child beta player l alpha best s).1) ∧
      (∀ v, IsMaxOver l g v → alpha < v → v < beta →
        (searchLoop zobristTable none child beta player l alpha best s).1 = v) := by
  induction l with
  | nil =>
    intro alpha best s hs _ _ hba
    refine ⟨hs, le_refl _, Or.inl rfl, fun _ h => absurd rfl h, fun _ => hba, ?_, ?_⟩
    · rintro ⟨m, hm, -⟩; exact absurd hm (List.not_mem_nil m)
    · rintro v ⟨⟨m, hm, -⟩, -⟩; exact absurd hm (List.not_mem_nil m)
  | cons m0 rest ih =>
    intro alpha best s hs ha hab hba
    obtain ⟨y, x⟩ := m0
    have hm0 : ((y, x) : Move) ∈ (y, x) :: rest := List.mem_cons_self _ _
    have ih' := ih (fun m hm => hstep m (List.mem_cons_of_mem _ hm))
    obtain ⟨hinv, hlo, hhi, hw1, hw2, hw3⟩ := hstep (y, x) hm0 alpha s hs ha hab
    rw [searchLoop_cons]
    have hp : nullMoveProbe none beta player (makeMove zobristTable s y x player)
        = (false, makeMove zobristTable s y x player) := rfl
    rw [hp]
    simp only [Bool.false_eq_true, if_false]
    generalize hval : negInt32 (child (negInt32 beta) (negInt32 alpha) (otherPlayer player)
        (makeMove zobristTable s y x player)).1 = value at *
    generalize hst : undoMove zobristTable (child (negInt32 beta) (negInt32 alpha)
        (otherPlayer player) (makeMove zobristTable s y x player)).2 y x player = s3 at *
    have hmaxrest : ∀ v, IsMaxOver ((y, x) :: rest) g v → g (y, x) < v → IsMaxOver rest g v := by
      rintro v ⟨⟨m, hm, hgm⟩, hall⟩ hlt
      refine ⟨?_, fun m hm => hall m (List.mem_cons_of_mem _ hm)⟩
      rcases List.mem_cons.1 hm with rfl | hm
      · omega
      · exact ⟨m, hm, hgm⟩
    by_cases hgt : value > best
    · rw [if_pos hgt]
      by_cases hva : value > alpha
      · rw [if_pos hva]
        by_cases hbr : value ≥ beta
        · rw [if_pos hbr]
          refine ⟨hinv, le_of_lt hgt, Or.inr ⟨hlo, hhi⟩, fun _ _ => ⟨hlo, hhi⟩, ?_, fun _ => hbr, ?_⟩
          · intro hall
            have := hw2 (hall (y, x) hm0)
            omega
          · intro v hv hav hvb
            have hg := hv.2 (y, x) hm0
            by_cases hga : g (y, x) ≤ alpha
            · have := hw2 hga; omega
            · have := hw1 (by omega) (by omega); omega
        · rw [if_neg hbr]
          obtain ⟨i1, i2, i3, -, i5, i6, i7⟩ := ih' value value s3 hinv (by omega) (by omega)
            (le_refl _)
          have hgexact : value = g (y, x) := by
            by_cases hga : g (y, x) ≤ alpha
            · have := hw2 hga; omega
            · by_cases hgb : beta ≤ g (y, x)
              · have := hw3 hgb; omega
              · exact hw1 (by omega) (by omega)
          refine ⟨i1, by omega, ?_, ?_, ?_, ?_, ?_⟩
          · rcases i3 with h | h
            · right; rw [h]; exact ⟨hlo, hhi⟩
            · right; exact h
          · intro _ _
            rcases i3 with h | h
            · rw [h]; exact ⟨hlo, hhi⟩
            · exact h
          · intro hall
            have := hall (y, x) hm0
            omega
          · rintro ⟨m, hm, hgm⟩
            rcases List.mem_cons.1 hm with rfl | hm
            · omega
            · exact i6 ⟨m, hm, hgm⟩
          · intro v hv hav hvb
            have hg := hv.2 (y, x) hm0
            by_cases heq : g (y, x) = v
            · have := i5 (fun m hm => by
                have := hv.2 m (List.mem_cons_of_mem _ hm); omega)
              omega
            · exact i7 v (hmaxrest v hv (by omega)) (by omega) hvb
      · rw [if_neg hva, if_neg (by omega : ¬ alpha ≥ beta)]
        obtain ⟨i1, i2, i3, -, i5, i6, i7⟩ := ih' alpha value s3 hinv ha hab (by omega)
        have hgle : g (y, x) ≤ alpha := by
          by_contra hga
          by_cases hgb : beta ≤ g (y, x)
          · have := hw3 hgb; omega
          · have := hw1 (by omega) (by omega); omega
        refine ⟨i1, by omega, ?_, ?_, ?_, ?_, ?_⟩
        · rcases i3 with h | h
          · right; rw [h]; exact ⟨hlo, hhi⟩
          · right; exact h
        · intro _ _
          rcases i3 with h | h
          · rw [h]; exact ⟨hlo, hhi⟩
          · exact h
        · intro hall
          exact i5 (fun m hm => hall m (List.mem_cons_of_mem _ hm))
        · rintro ⟨m, hm, hgm⟩
          rcases List.mem_cons.1 hm with rfl | hm
          · omega
          · exact i6 ⟨m, hm, hgm⟩
        · intro v hv hav hvb
          exact i7 v (hmaxrest v hv (by omega)) hav hvb
    · rw [if_neg hgt]
      obtain ⟨i1, i2, i3, i4, i5, i6, i7⟩ := ih' alpha best s3 hinv ha hab hba
      have hgle : g (y, x) ≤ alpha := by
        by_contra hga
        by_cases hgb : beta ≤ g (y, x)
        · have := hw3 hgb; omega
        · have := hw1 (by omega) (by omega); omega
      refine ⟨i1, i2, i3, ?_, ?_, ?_, ?_⟩
      · intro hb _
        omega
      · intro hall
        exact i5 (fun m hm => hall m (List.mem_cons_of_mem _ hm))
      · rintro ⟨m, hm, hgm⟩
        rcases List.mem_cons.1 hm with rfl | hm
        · omega
        · exact i6 ⟨m, hm, hgm⟩
      · intro v hv hav hvb
        exact i7 v (hmaxrest v hv (by omega)) hav hvb

theorem unprunedValue_succ_isMax (d : Nat) (board : Board) (player : Char)
    (hb : ∀ (b : Board) (q : Char),
      -1800000000 ≤ unprunedValue d b q ∧ unprunedValue d b q ≤ 1800000000) :
    IsMaxOver (getNearbyMoves board)
      (fun m => -(unprunedValue d (setCell board m.1 m.2 player) (otherPlayer player)))
      (unprunedValue (d + 1) board player) := by
  have h := listMax_isMax ((getNearbyMoves board).map
      (fun m => -(unprunedValue d (setCell board m.1 m.2 player) (otherPlayer player))))
    (by simpa using getNearbyMoves_ne_nil board)
    (by
      intro w hw
      obtain ⟨m, -, rfl⟩ := List.mem_map.1 hw
      have := hb (setCell board m.1 m.2 player) (otherPlayer player)
      unfold INT_MIN
      omega)
  constructor
  · obtain ⟨m, hm, he⟩ := List.mem_map.1 h.1
    exact ⟨m, hm, he⟩
  · intro m hm
    exact h.2 _ (List.mem_map.2 ⟨m, hm, rfl⟩)

theorem unprunedValue_range :
    ∀ (d : Nat) (board : Board) (player : Char),
      -1800000000 ≤ unprunedValue d board player ∧
        unprunedValue d board player ≤ 1800000000 := by
  intro d
  induction d with
  | zero =>
    intro board player
    have := staticScore_range board
    simp only [unprunedValue]
    omega
  | succ d ih =>
    intro board player
    obtain ⟨⟨m, -, hm⟩, -⟩ := unprunedValue_succ_isMax d board player ih
    have := ih (setCell board m.1 m.2 player) (otherPlayer player)
    simp only at hm
    omega

theorem windowAgrees_neg (r v a beta : Int) (h : WindowAgrees r v (-beta) (-a)) :
    WindowAgrees (-r) (-v) a beta := by
  obtain ⟨h1, h2, h3⟩ := h
  refine ⟨fun p q => ?_, fun p => ?_, fun p => ?_⟩
  · have := h1 (by omega) (by omega); omega
  · have := h3 (by omega); omega
  · have := h2 (by omega); omega

/-- A node of depth at most 2: on a window inside the `int` range, with the
cache right on every leaf below it, `negamax` agrees with the unpruned value
and restores the board and the hash. -/
theorem negamax_node (zobristTable : ZobristTable) (sortMoves : Sorter)
    (hsort : SortPermutes sortMoves) (U : Board → Nat → Prop)
    (hU : ∀ b1 b2 h, U b1 h → U b2 h → staticScore b1 = staticScore b2) :
    ∀ (d : Nat), d ≤ 2 → ∀ (alpha beta : Int) (player : Char) (s : State),
      INT_MIN < alpha → alpha < beta → beta ≤ INT_MAX →
      HasEmptyCells s.board d →
      (∀ lf ∈ leafStates zobristTable d s.board s.currentHash player, U lf.1 lf.2) →
      SoundOn U s.transpositionTable →
      ((negamax zobristTable sortMoves d alpha beta player s).2.board = s.board ∧
        (negamax zobristTable sortMoves d alpha beta player s).2.currentHash = s.currentHash ∧
        SoundOn U (negamax zobristTable sortMoves d alpha beta player s).2.transpositionTable) ∧
      -1800000000 ≤ (negamax zobristTable sortMoves d alpha beta player s).1 ∧
      (negamax zobristTable sortMoves d alpha beta player s).1 ≤ 1800000000 ∧
      WindowAgrees (negamax zobristTable sortMoves d alpha beta player s).1
        (unprunedValue d s.board player) alpha beta := by
  intro d
  induction d with
  | zero =>
    intro _ alpha beta player s _ _ _ _ hleaf hsound
    have hu : U s.board s.currentHash := hleaf (s.board, s.currentHash) (by simp [leafStates])
    have hr := staticScore_range s.board
    rw [negamax_zero]
    have hval : evaluateGameState s = (staticScore s.board, (evaluateGameState s).2) ∧
        (evaluateGameState s).2.board = s.board ∧
        (evaluateGameState s).2.currentHash = s.currentHash ∧
        SoundOn U (evaluateGameState s).2.transpositionTable := by
      cases hc : s.transpositionTable s.currentHash with
      | some v =>
        rw [evaluateGameState_hit s v hc, hsound s.board s.currentHash v hu hc]
        exact ⟨rfl, rfl, rfl, hsound⟩
      | none =>
        rw [evaluateGameState_of_miss s hc]
        refine ⟨rfl, rfl, rfl, ?_⟩
        intro b h v hb hv
        simp only at hv
        split_ifs at hv with hh
        · simp only [Option.some.injEq] at hv
          rw [← hv]
          exact hU s.board b h (hh ▸ hu) hb
        · exact hsound b h v hb hv
    obtain ⟨h1, h2, h3, h4⟩ := hval
    rw [h1]
    refine ⟨⟨h2, h3, h4⟩, by simp only; omega, by simp only; omega, ?_⟩
    simp only [unprunedValue]
    exact ⟨fun _ _ => rfl, fun h => h, fun h => h⟩
  | succ d ih =>
    intro hd2 alpha beta player s ha hab hb hcells hleaf hsound
    have hmem : ∀ m ∈ sortMoves (moveOrder s.board) (getNearbyMoves s.board),
        m ∈ getNearbyMoves s.board := fun m hm => (hsort _ _).subset hm
    have hempty := getNearbyMoves_empty_cells s.board (hasEmptyCells_exists s.board d hcells)
    rw [negamax_pos _ _ _ _ _ _ _ (by omega)]
    have h3 : ¬ (d + 1 ≥ 3) := by omega
    rw [if_neg h3]
    have hmax := unprunedValue_succ_isMax d s.board player (unprunedValue_range d)
    have hmax' : IsMaxOver (sortMoves (moveOrder s.board) (getNearbyMoves s.board))
        (fun m => -(unprunedValue d (setCell s.board m.1 m.2 player) (otherPlayer player)))
        (unprunedValue (d + 1) s.board player) := by
      obtain ⟨⟨m, hm, hg⟩, hall⟩ := hmax
      exact ⟨⟨m, (hsort _ _).symm.subset hm, hg⟩, fun m hm => hall m (hmem m hm)⟩
    have hloop := alphaBetaLoop zobristTable (negamax zobristTable sortMoves (d + 1 - 1)) beta
      player
      (fun m => -(unprunedValue d (setCell s.board m.1 m.2 player) (otherPlayer player)))
      (fun t => t.board = s.board ∧ t.currentHash = s.currentHash ∧
        SoundOn U t.transpositionTable)
      (sortMoves (moveOrder s.board) (getNearbyMoves s.board))
      (by
        intro m hm a t ht haa hab'
        obtain ⟨ht1, ht2, ht3⟩ := ht
        have e1 : negInt32 beta = -beta := negInt32_of_range beta
          (by unfold INT_MIN at ha; omega) (by unfold INT_MAX at hb; omega)
        have e2 : negInt32 a = -a := negInt32_of_range a
          (by unfold INT_MIN at haa; omega) (by unfold INT_MAX at hb; omega)
        rw [e1, e2]
        have hchild := ih (by omega) (-beta) (-a) (otherPlayer player)
          (makeMove zobristTable t m.1 m.2 player)
          (by unfold INT_MIN; unfold INT_MAX at hb; omega) (by omega)
          (by unfold INT_MAX; unfold INT_MIN at haa; omega)
          (by
            show HasEmptyCells (setCell t.board m.1 m.2 player) d
            rw [ht1]
            exact hasEmptyCells_setCell s.board d m.1 m.2 player hcells)
          (by
            intro lf hlf
            apply hleaf lf
            simp only [leafStates, List.mem_flatMap]
            refine ⟨m, hmem m hm, ?_⟩
            have hb' : (makeMove zobristTable t m.1 m.2 player).board
                = setCell s.board m.1 m.2 player := by simp only [makeMove, ht1]
            have hh' : (makeMove zobristTable t m.1 m.2 player).currentHash
                = updateHash zobristTable m.1 m.2 player s.currentHash := by
              simp only [makeMove, ht2]
            rw [hb', hh'] at hlf
            exact hlf)
          ht3
        obtain ⟨⟨c1, c2, c3⟩, c4, c5, c6⟩ := hchild
        have e3 : d + 1 - 1 = d := by omega
        rw [e3]
        have hbm : (makeMove zobristTable t m.1 m.2 player).board
            = setCell s.board m.1 m.2 player := by simp only [makeMove, ht1]
        rw [hbm] at c1 c6
        rw [negInt32_of_range _ (by omega) (by omega)]
        refine ⟨⟨?_, ?_, c3⟩, by omega, by omega, windowAgrees_neg _ _ _ _ c6⟩
        · simp only [undoMove, c1]
          exact setCell_setCell_empty s.board m.1 m.2 player (hempty m (hmem m hm)).2
        · show updateHash zobristTable m.1 m.2 player _ = s.currentHash
          rw [c2]
          simp only [makeMove, ht2, updateHash_updateHash])
      alpha INT_MIN s ⟨rfl, rfl, hsound⟩ ha hab (le_of_lt ha)
    obtain ⟨l1, -, -, l4, l5, l6, l7⟩ := hloop
    have hbound := l4 (by decide) (keepsNonempty_of_sortPermutes sortMoves hsort _ _
      (getNearbyMoves_ne_nil s.board))
    refine ⟨l1, hbound.1, hbound.2, fun p q => l7 _ hmax' p q, fun p => ?_, fun p => ?_⟩
    · exact l5 (fun m hm => le_trans (hmax'.2 m hm) p)
    · obtain ⟨⟨m, hm, hg⟩, -⟩ := hmax'
      exact l6 ⟨m, hm, by rw [hg]; exact p⟩

/-- C17, amended. At depth 1 or 2, on a board with at least `d` empty cells and a window
`INT_MIN < alpha < beta`, when the leaves are scored by the static score (two
leaves of the search with the same hash have the same static score, and a
value cached under the hash of a leaf is its static score), `negamax` agrees
with the value `v` of the unpruned search, which is the greatest negated child
value over all candidates: it returns `v` when `alpha < v < beta`, at most
`alpha` when `v <= alpha`, at least `beta` when `v >= beta`; and when
`alpha < v < beta` it returns `v` whatever order the candidates are sorted in. -/
theorem negamax_alpha_beta (zobristTable : ZobristTable) (sortMoves : Sorter)
    (hsort : SortPermutes sortMoves) (d : Nat) (hd : d = 1 ∨ d = 2) (alpha beta : Int)
    (player : Char) (s : State)
    (halpha : INT_MIN < alpha) (hwindow : alpha < beta) (hbeta : beta ≤ INT_MAX)
    (hcells : d ≤ emptyCount s.board)
    (hcollide : ∀ l1 ∈ leafStates zobristTable d s.board s.currentHash player,
      ∀ l2 ∈ leafStates zobristTable d s.board s.currentHash player,
        l1.2 = l2.2 → staticScore l1.1 = staticScore l2.1)
    (hsound : ∀ lf ∈ leafStates zobristTable d s.board s.currentHash player,
      ∀ v, s.transpositionTable lf.2 = some v → v = staticScore lf.1) :
    (∀ (b : Board) (q : Char), unprunedValue 0 b q = staticScore b) ∧
      IsMaxOver (getNearbyMoves s.board)
        (fun m => -(unprunedValue (d - 1) (setCell s.board m.1 m.2 player) (otherPlayer player)))
        (unprunedValue d s.board player) ∧
      (alpha < unprunedValue d s.board player → unprunedValue d s.board player < beta →
        (negamax zobristTable sortMoves d alpha beta player s).1
          = unprunedValue d s.board player) ∧
      (unprunedValue d s.board player ≤ alpha →
        (negamax zobristTable sortMoves d alpha beta player s).1 ≤ alpha) ∧
      (beta ≤ unprunedValue d s.board player →
        beta ≤ (negamax zobristTable sortMoves d alpha beta player s).1) ∧
      (∀ sortMoves2 : Sorter, SortPermutes sortMoves2 →
        alpha < unprunedValue d s.board player → unprunedValue d s.board player < beta →
        (negamax zobristTable sortMoves2 d alpha beta player s).1
          = (negamax zobristTable sortMoves d alpha beta player s).1) := by
  have hd2 : d ≤ 2 := by omega
  have hnode : ∀ srt : Sorter, SortPermutes srt →
      WindowAgrees (negamax zobristTable srt d alpha beta player s).1
        (unprunedValue d s.board player) alpha beta := by
    intro srt hsrt
    have hU : ∀ (b1 b2 : Board) (h : Nat),
        (b1, h) ∈ leafStates zobristTable d s.board s.currentHash player →
        (b2, h) ∈ leafStates zobristTable d s.board s.currentHash player →
        staticScore b1 = staticScore b2 := fun b1 b2 h h1 h2 => hcollide (b1, h) h1 (b2, h) h2 rfl
    have hleaf : ∀ lf ∈ leafStates zobristTable d s.board s.currentHash player,
        (fun (b : Board) (h : Nat) =>
          (b, h) ∈ leafStates zobristTable d s.board s.currentHash player) lf.1 lf.2 := by
      rintro ⟨b, h⟩ hlf
      exact hlf
    have hs : SoundOn (fun (b : Board) (h : Nat) =>
        (b, h) ∈ leafStates zobristTable d s.board s.currentHash player)
        s.transpositionTable := fun b h v hb hv => hsound (b, h) hb v hv
    exact (negamax_node zobristTable srt hsrt _ hU d hd2 alpha beta player s halpha hwindow
      hbeta (hasEmptyCells_of_count s.board d hcells) hleaf hs).2.2.2
  obtain ⟨h1, h2, h3⟩ := hnode sortMoves hsort
  refine ⟨fun _ _ => rfl, ?_, h1, h2, h3, ?_⟩
  · obtain ⟨e, rfl⟩ : ∃ e, d = e + 1 := ⟨d - 1, by omega⟩
    exact unprunedValue_succ_isMax e s.board player (unprunedValue_range e)
  · intro srt hsrt p q
    rw [(hnode srt hsrt).1 p q, h1 p q]

theorem leafStates_emptyState :
    leafStates testKeys 1 emptyState.board emptyState.currentHash HUMAN_PIECE
      = [(setCell emptyBoard 7 7 HUMAN_PIECE, updateHash testKeys 7 7 HUMAN_PIECE 0)] := by
  have h : getNearbyMoves emptyBoard = [(7, 7)] :=
    getNearbyMoves_all_empty emptyBoard (fun _ _ _ => rfl)
  simp only [leafStates, emptyState, h, List.flatMap_cons, List.flatMap_nil, List.append_nil]

theorem negamax_alpha_beta_witness :
    (∀ (b : Board) (q : Char), unprunedValue 0 b q = staticScore b) ∧
      IsMaxOver (getNearbyMoves emptyState.board)
        (fun m => -(unprunedValue (1 - 1) (setCell emptyState.board m.1 m.2 HUMAN_PIECE)
          (otherPlayer HUMAN_PIECE)))
        (unprunedValue 1 emptyState.board HUMAN_PIECE) ∧
      (-5 < unprunedValue 1 emptyState.board HUMAN_PIECE →
        unprunedValue 1 emptyState.board HUMAN_PIECE < 5 →
        (negamax testKeys insertionSorter 1 (-5) 5 HUMAN_PIECE emptyState).1
          = unprunedValue 1 emptyState.board HUMAN_PIECE) ∧
      (unprunedValue 1 emptyState.board HUMAN_PIECE ≤ -5 →
        (negamax testKeys insertionSorter 1 (-5) 5 HUMAN_PIECE emptyState).1 ≤ -5) ∧
      (5 ≤ unprunedValue 1 emptyState.board HUMAN_PIECE →
        5 ≤ (negamax testKeys insertionSorter 1 (-5) 5 HUMAN_PIECE emptyState).1) ∧
      (∀ sortMoves2 : Sorter, SortPermutes sortMoves2 →
        -5 < unprunedValue 1 emptyState.board HUMAN_PIECE →
        unprunedValue 1 emptyState.board HUMAN_PIECE < 5 →
        (negamax testKeys sortMoves2 1 (-5) 5 HUMAN_PIECE emptyState).1
          = (negamax testKeys insertionSorter 1 (-5) 5 HUMAN_PIECE emptyState).1) :=
  negamax_alpha_beta testKeys insertionSorter insertionSorter_sortPermutes 1 (Or.inl rfl) (-5) 5
    HUMAN_PIECE emptyState (by decide) (by decide) (by decide)
    (by
      have : emptyCount emptyState.board = 225 := emptyCount_emptyBoard
      omega)
    (by
      rw [leafStates_emptyState]
      intro l1 h1 l2 h2 _
      rw [List.mem_singleton.1 h1, List.mem_singleton.1 h2])
    (by
      intro lf _ v hv
      exact absurd hv (by simp [emptyState]))

/-! ## The returned value and the order of equal candidates -/

set_option maxRecDepth 100000 in
theorem getNearbyMoves_cornerThree :
    getNearbyMoves cornerThree = [(0, 3), (1, 0), (1, 1), (1, 2), (1, 3)] := by
  decide

set_option maxRecDepth 100000 in
theorem sorted_cornerThree :
    insertionSorter (moveOrder cornerThree) [(0, 3), (1, 0), (1, 1), (1, 2), (1, 3)]
      = [(0, 3), (1, 0), (1, 1), (1, 2), (1, 3)] := by
  decide

set_option maxRecDepth 100000 in
theorem reverseSorted_cornerThree :
    reverseTiesSorter (moveOrder cornerThree) [(0, 3), (1, 0), (1, 1), (1, 2), (1, 3)]
      = [(1, 3), (1, 2), (1, 1), (1, 0), (0, 3)] := by
  decide

set_option maxRecDepth 100000 in
theorem staticScore_cornerThree_first :
    staticScore (setCell cornerThree 0 3 HUMAN_PIECE) = -80000 := by
  decide

set_option maxRecDepth 100000 in
theorem staticScore_cornerThree_last :
    staticScore (setCell cornerThree 1 3 HUMAN_PIECE) = -600 := by
  decide

set_option maxRecDepth 100000 in
theorem boardHash_cornerThree : boardHash testKeys cornerThree = 7 := by
  decide

theorem reverseTiesSorter_sortPermutes : SortPermutes reverseTiesSorter := by
  intro lt l
  exact (insertionSorter_sortPermutes lt l.reverse).trans (List.reverse_perm l)

/-- The value of a depth-1 node whose first candidate already reaches `beta`:
the negated static score of the position after that candidate. -/
theorem negamax_one_first_cut (zobristTable : ZobristTable) (sortMoves : Sorter)
    (alpha beta : Int) (player : Char) (board : Board) (h : Nat) (y x : Int)
    (rest : List Move) (score : Int)
    (hsorted : sortMoves (moveOrder board) (getNearbyMoves board) = (y, x) :: rest)
    (hscore : staticScore (setCell board y x player) = score)
    (hlow : INT_MIN < -score) (halpha : alpha < -score) (hbeta : beta ≤ -score)
    (hrange : -2147483647 ≤ score ∧ score ≤ 2147483647) :
    (negamax zobristTable sortMoves 1 alpha beta player ⟨board, h, fun _ => none⟩).1
      = -score := by
  rw [negamax_pos _ _ _ _ _ _ _ (by decide)]
  have h3 : ¬ (1 ≥ 3) := by decide
  rw [if_neg h3]
  simp only [hsorted]
  rw [searchLoop_cons]
  have hp : nullMoveProbe none beta player
      (makeMove zobristTable ⟨board, h, fun _ => none⟩ y x player)
      = (false, makeMove zobristTable ⟨board, h, fun _ => none⟩ y x player) := rfl
  rw [hp]
  have hchild : (negamax zobristTable sortMoves (1 - 1) (negInt32 beta) (negInt32 alpha)
      (otherPlayer player) (makeMove zobristTable ⟨board, h, fun _ => none⟩ y x player)).1
      = score := by
    have e : negamax zobristTable sortMoves (1 - 1) (negInt32 beta) (negInt32 alpha)
        (otherPlayer player) (makeMove zobristTable ⟨board, h, fun _ => none⟩ y x player)
        = evaluateGameState (makeMove zobristTable ⟨board, h, fun _ => none⟩ y x player) :=
      negamax_zero _ _ _ _ _ _
    rw [e, evaluateGameState_of_miss _ rfl]
    exact hscore
  simp only [Bool.false_eq_true, if_false, hchild]
  rw [negInt32_of_range score hrange.1 hrange.2]
  rw [if_pos hlow, if_pos halpha, if_pos hbeta]

/-- C17, as stated, fails in its last part: with all candidates equal under the
sort comparison, two sorts that differ only in the order of equal candidates
make `negamax` return different values (both at least `beta`). -/
theorem negamax_value_depends_on_order :
    (1 ≤ emptyCount cornerThreeState.board ∧ INT_MIN < 0 ∧ (0 : Int) < 100 ∧
        cornerThreeState.transpositionTable = (fun _ => none) ∧
        ((leafStates testKeys 1 cornerThree 7 HUMAN_PIECE).map Prod.snd).Nodup ∧
        unprunedValue 1 cornerThree HUMAN_PIECE = 80000) ∧
      (∀ a ∈ getNearbyMoves cornerThree, ∀ b ∈ getNearbyMoves cornerThree,
        moveOrder cornerThree a b = false) ∧
      SortPermutes insertionSorter ∧ SortPermutes reverseTiesSorter ∧
      (negamax testKeys insertionSorter 1 0 100 HUMAN_PIECE cornerThreeState).1 = 80000 ∧
      (negamax testKeys reverseTiesSorter 1 0 100 HUMAN_PIECE cornerThreeState).1 = 600 ∧
      (negamax testKeys insertionSorter 1 0 100 HUMAN_PIECE cornerThreeState).1
        ≠ (negamax testKeys reverseTiesSorter 1 0 100 HUMAN_PIECE cornerThreeState).1 := by
  have h1 : (negamax testKeys insertionSorter 1 0 100 HUMAN_PIECE cornerThreeState).1
      = 80000 :=
    negamax_one_first_cut testKeys insertionSorter 0 100 HUMAN_PIECE cornerThree 7 0 3
      [(1, 0), (1, 1), (1, 2), (1, 3)] (-80000)
      (by rw [getNearbyMoves_cornerThree]; exact sorted_cornerThree)
      staticScore_cornerThree_first (by decide) (by decide) (by decide) (by decide)
  have h2 : (negamax testKeys reverseTiesSorter 1 0 100 HUMAN_PIECE cornerThreeState).1
      = 600 :=
    negamax_one_first_cut testKeys reverseTiesSorter 0 100 HUMAN_PIECE cornerThree 7 1 3
      [(1, 2), (1, 1), (1, 0), (0, 3)] (-600)
      (by rw [getNearbyMoves_cornerThree]; exact reverseSorted_cornerThree)
      staticScore_cornerThree_last (by decide) (by decide) (by decide) (by decide)
  refine ⟨⟨?_, by decide, by decide, rfl, ?_, ?_⟩, ?_, insertionSorter_sortPermutes,
    reverseTiesSorter_sortPermutes, h1, h2, ?_⟩
  · show 1 ≤ emptyCount cornerThree
    set_option maxRecDepth 100000 in decide
  · simp only [leafStates, getNearbyMoves_cornerThree]
    decide
  · simp only [unprunedValue, getNearbyMoves_cornerThree]
    set_option maxRecDepth 100000 in decide
  · rw [getNearbyMoves_cornerThree]
    set_option maxRecDepth 100000 in decide
  · rw [h1, h2]; decide

end Gomoku
